import Mathlib

set_option maxRecDepth 4000

/-!
Verification of the mask-based compositor of `app.py`.

Shallow embedding of the self-contained logic of `src/app.py`
(alwaysai/smooth-semantic-segmentation):

* `overlay_image` (lines 44-52): the foreground/background compositor.
  The code works on `numpy` `float64` arrays; we model IEEE-754 binary64
  round-to-nearest-even arithmetic exactly, representing a non-negative
  finite double as a mantissa/exponent pair (`D` below).  All doubles
  reached by the program are normal and non-negative, so this fragment of
  binary64 suffices.  `np.uint8` on a non-negative `float64` array
  truncates toward zero and wraps modulo `2^8` (C cast semantics).
* the per-frame colour-table derivation (lines 96-101),
* mask dilation with the 31x31 cross element (lines 107-114),
* mask box blur (line 117).
-/

/-- Fuel-bounded floor of the base-2 logarithm (`Nat.log2` is defined by
well-founded recursion, which the kernel cannot evaluate; this structural
version evaluates by `decide`/`rfl`).  Correct for `n < 2 ^ fuel`. -/
def log2F : ℕ → ℕ → ℕ
  | 0, _ => 0
  | fuel + 1, n => if n < 2 then 0 else log2F fuel (n / 2) + 1

/-- Fuel used everywhere; every mantissa occurring in the pipeline is
(far) below `2 ^ 2000`. -/
def fuelN : ℕ := 2000

/-- Round `p / 2 ^ s` to the nearest integer, ties to even
(the IEEE-754 binary64 rounding of a mantissa). -/
def rshiftRound (p s : ℕ) : ℕ :=
  if s = 0 then p
  else
    let q := p / 2 ^ s
    let r := p % 2 ^ s
    if 2 ^ (s - 1) < r ∨ (r = 2 ^ (s - 1) ∧ q % 2 = 1) then q + 1 else q

/-- A non-negative finite binary64 value `m * 2 ^ e`. -/
structure D where
  m : ℕ
  e : ℤ
  deriving DecidableEq

/-- The exact rational value of a `D`. -/
def D.val (x : D) : ℚ := (x.m : ℚ) * (2 : ℚ) ^ x.e

/-- Renormalise `p * 2 ^ e` to a 53-bit mantissa, rounding to nearest,
ties to even: IEEE-754 binary64 rounding of an exact non-negative value. -/
def normD (p : ℕ) (e : ℤ) : D :=
  if p < 2 ^ 53 then
    ⟨p * 2 ^ (52 - log2F fuelN p), e - (52 - log2F fuelN p)⟩
  else if rshiftRound p (log2F fuelN p - 52) = 2 ^ 53 then
    ⟨2 ^ 52, e + (log2F fuelN p - 52) + 1⟩
  else
    ⟨rshiftRound p (log2F fuelN p - 52), e + (log2F fuelN p - 52)⟩

/-- Correctly rounded binary64 product. -/
def dmul (a b : D) : D := normD (a.m * b.m) (a.e + b.e)

/-- Correctly rounded binary64 sum. -/
def dadd (a b : D) : D :=
  normD (a.m * 2 ^ (a.e - min a.e b.e).toNat + b.m * 2 ^ (b.e - min a.e b.e).toNat)
    (min a.e b.e)

/-- The exact double of a small natural number. -/
def dofNat (v : ℕ) : D := normD v 0

/-- The binary64 value of the Python literal `1 / 255.0`
(the correctly rounded quotient; see `c255_val_bounds`). -/
def c255 : D := ⟨4521260802379792, -60⟩

/-- The cast `np.uint8` applied to a non-negative `float64`: truncate toward
zero, wrap modulo `2 ^ 8`. -/
def np_uint8 (x : D) : ℕ :=
  (if 0 ≤ x.e then x.m * 2 ^ x.e.toNat else x.m / 2 ^ (-x.e).toNat) % 256

/-! ## Basic facts about `log2F`, `rshiftRound`, `normD` -/

theorem log2F_spec (fuel n : ℕ) (h1 : 1 ≤ n) (h2 : n < 2 ^ fuel) :
    2 ^ log2F fuel n ≤ n ∧ n < 2 ^ (log2F fuel n + 1) := by
  induction fuel generalizing n with
  | zero => simp at h2; omega
  | succ fuel ih =>
    rw [log2F]
    by_cases hn : n < 2
    · simp [hn]; omega
    · simp only [hn, if_false]
      have hdiv : 1 ≤ n / 2 := Nat.one_le_div_iff (by norm_num) |>.mpr (by omega)
      have hdiv2 : n / 2 < 2 ^ fuel := by
        rw [Nat.div_lt_iff_lt_mul (by norm_num)]
        calc n < 2 ^ (fuel + 1) := h2
        _ = 2 ^ fuel * 2 := by ring
      obtain ⟨hlo, hhi⟩ := ih (n / 2) hdiv hdiv2
      have hp1 : (2:ℕ) ^ (log2F fuel (n / 2) + 1) = 2 * 2 ^ log2F fuel (n / 2) := by ring
      have hp2 : (2:ℕ) ^ (log2F fuel (n / 2) + 1 + 1) = 2 * 2 ^ (log2F fuel (n / 2) + 1) := by
        ring
      omega

theorem rshiftRound_le (p s : ℕ) :
    2 ^ s * (2 * rshiftRound p s) ≤ 2 * p + 2 ^ s := by
  rw [rshiftRound]
  by_cases hs : s = 0
  · subst hs; norm_num
  · simp only [hs, if_false]
    have hdm := Nat.div_add_mod p (2 ^ s)
    have hr : p % 2 ^ s < 2 ^ s := Nat.mod_lt _ (Nat.pos_pow_of_pos s (by norm_num))
    have hhalf : 2 ^ (s - 1) * 2 = 2 ^ s := by
      rw [← pow_succ]; congr 1; omega
    by_cases hc : 2 ^ (s - 1) < p % 2 ^ s ∨ (p % 2 ^ s = 2 ^ (s - 1) ∧ p / 2 ^ s % 2 = 1)
    · simp only [hc, if_true]
      have hge : 2 ^ (s - 1) ≤ p % 2 ^ s := by rcases hc with h | ⟨h, _⟩ <;> omega
      have hexp : 2 ^ s * (2 * (p / 2 ^ s + 1)) = 2 * (2 ^ s * (p / 2 ^ s)) + 2 * 2 ^ s := by
        ring
      omega
    · simp only [hc, if_false]
      have hexp : 2 ^ s * (2 * (p / 2 ^ s)) = 2 * (2 ^ s * (p / 2 ^ s)) := by ring
      omega

theorem rshiftRound_ge (p s : ℕ) :
    2 * p ≤ 2 ^ s * (2 * rshiftRound p s + 1) := by
  rw [rshiftRound]
  by_cases hs : s = 0
  · subst hs; norm_num
  · simp only [hs, if_false]
    have hdm := Nat.div_add_mod p (2 ^ s)
    have hr : p % 2 ^ s < 2 ^ s := Nat.mod_lt _ (Nat.pos_pow_of_pos s (by norm_num))
    have hhalf : 2 ^ (s - 1) * 2 = 2 ^ s := by
      rw [← pow_succ]; congr 1; omega
    by_cases hc : 2 ^ (s - 1) < p % 2 ^ s ∨ (p % 2 ^ s = 2 ^ (s - 1) ∧ p / 2 ^ s % 2 = 1)
    · simp only [hc, if_true]
      have hexp : 2 ^ s * (2 * (p / 2 ^ s + 1) + 1) =
          2 * (2 ^ s * (p / 2 ^ s)) + 3 * 2 ^ s := by ring
      omega
    · simp only [hc, if_false]
      have hle : p % 2 ^ s ≤ 2 ^ (s - 1) := by
        by_contra hgt
        exact hc (Or.inl (by omega))
      have hexp : 2 ^ s * (2 * (p / 2 ^ s) + 1) = 2 * (2 ^ s * (p / 2 ^ s)) + 2 ^ s := by ring
      omega

theorem rshiftRound_lt (p s : ℕ) (h : p < 2 ^ (53 + s)) : rshiftRound p s ≤ 2 ^ 53 := by
  have hq : p / 2 ^ s < 2 ^ 53 := by
    rw [Nat.div_lt_iff_lt_mul (Nat.pos_pow_of_pos s (by norm_num))]
    calc p < 2 ^ (53 + s) := h
    _ = 2 ^ 53 * 2 ^ s := by rw [pow_add]
  rw [rshiftRound]
  by_cases hs : s = 0
  · subst hs
    simp only [if_pos rfl]
    simpa using hq.le
  · simp only [hs, if_false]
    split <;> omega


theorem log2F_zero (fuel : ℕ) : log2F fuel 0 = 0 := by
  cases fuel with
  | zero => rfl
  | succ fuel => rw [log2F]; norm_num

theorem log2F_lt (p k : ℕ) (hk : k ≤ fuelN) (h1 : 1 ≤ p) (hp : p < 2 ^ k) :
    log2F fuelN p < k := by
  have hpf : p < 2 ^ fuelN := lt_of_lt_of_le hp (Nat.pow_le_pow_right (by norm_num) hk)
  obtain ⟨hl1, _⟩ := log2F_spec fuelN p h1 hpf
  by_contra hcon
  push_neg at hcon
  have : (2:ℕ) ^ k ≤ 2 ^ log2F fuelN p := Nat.pow_le_pow_right (by norm_num) hcon
  omega

theorem log2F_ge (p k : ℕ) (hpf : p < 2 ^ fuelN) (hp : 2 ^ k ≤ p) :
    k ≤ log2F fuelN p := by
  have h1 : 1 ≤ p := le_trans (Nat.one_le_two_pow) hp
  obtain ⟨_, hl2⟩ := log2F_spec fuelN p h1 hpf
  by_contra hcon
  push_neg at hcon
  have : (2:ℕ) ^ (log2F fuelN p + 1) ≤ 2 ^ k := Nat.pow_le_pow_right (by norm_num) (by omega)
  omega

theorem normD_m_lt (p : ℕ) (e : ℤ) (hp : p < 2 ^ fuelN) : (normD p e).m < 2 ^ 53 := by
  rw [normD]
  split_ifs with h1 h2
  · dsimp only
    rcases Nat.eq_zero_or_pos p with hz | hpos
    · subst hz; simp
    · obtain ⟨hl1, hl2⟩ := log2F_spec fuelN p hpos hp
      have hl52 : log2F fuelN p ≤ 52 := by
        have := log2F_lt p 53 (by norm_num [fuelN]) hpos h1
        omega
      calc p * 2 ^ (52 - log2F fuelN p) < 2 ^ (log2F fuelN p + 1) * 2 ^ (52 - log2F fuelN p) := by
            have h2p : 0 < (2:ℕ) ^ (52 - log2F fuelN p) := Nat.pos_pow_of_pos _ (by norm_num)
            exact (Nat.mul_lt_mul_right h2p).mpr hl2
      _ = 2 ^ 53 := by rw [← pow_add]; congr 1; omega
  · dsimp only; norm_num
  · dsimp only
    push_neg at h1
    have hl53 : 53 ≤ log2F fuelN p := log2F_ge p 53 hp h1
    obtain ⟨hl1, hl2⟩ := log2F_spec fuelN p (le_trans (by norm_num) h1) hp
    have hle := rshiftRound_lt p (log2F fuelN p - 52) (by
      have heq : 53 + (log2F fuelN p - 52) = log2F fuelN p + 1 := by omega
      rw [heq]; exact hl2)
    omega

theorem normD_e_lb (p : ℕ) (e : ℤ) : e - 52 ≤ (normD p e).e := by
  rw [normD]
  split_ifs with h1 h2 <;> dsimp only <;> omega

theorem normD_e_ub (p : ℕ) (e : ℤ) (hp : p < 2 ^ 106) : (normD p e).e ≤ e + 54 := by
  have hl105 : log2F fuelN p ≤ 105 := by
    rcases Nat.eq_zero_or_pos p with hz | hpos
    · subst hz; rw [log2F_zero]; norm_num
    · have := log2F_lt p 106 (by norm_num [fuelN]) hpos hp
      omega
  rw [normD]
  split_ifs with h1 h2 <;> dsimp only <;> omega

theorem normD_val_small (p : ℕ) (e : ℤ) (hp : p < 2 ^ 53) :
    (normD p e).val = (p : ℚ) * (2:ℚ) ^ e := by
  have hl52 : log2F fuelN p ≤ 52 := by
    rcases Nat.eq_zero_or_pos p with hz | hpos
    · subst hz; rw [log2F_zero]; norm_num
    · have := log2F_lt p 53 (by norm_num [fuelN]) hpos hp
      omega
  rw [normD, if_pos hp]
  simp only [D.val]
  push_cast [hl52]
  rw [mul_assoc, ← zpow_natCast (2:ℚ) (52 - log2F fuelN p),
    ← zpow_add₀ (by norm_num : (2:ℚ) ≠ 0)]
  congr 1
  push_cast [hl52]
  ring

theorem normD_big_aux (p : ℕ) (e : ℤ) (s : ℕ) (hs1 : 1 ≤ s)
    (hlo : 2 ^ (52 + s) ≤ p) :
    (p:ℚ) * (2:ℚ)^e * (1 - 1/2^53) ≤ (rshiftRound p s : ℚ) * (2:ℚ)^(e + (s:ℤ)) ∧
    (rshiftRound p s : ℚ) * (2:ℚ)^(e + (s:ℤ)) ≤ (p:ℚ) * (2:ℚ)^e * (1 + 1/2^53) := by
  have hA := rshiftRound_le p s
  have hB := rshiftRound_ge p s
  have hAq : (2:ℚ)^s * (2 * (rshiftRound p s : ℚ)) ≤ 2*(p:ℚ) + 2^s := by exact_mod_cast hA
  have hBq : (2:ℚ)*(p:ℚ) ≤ 2^s * (2*(rshiftRound p s : ℚ) + 1) := by exact_mod_cast hB
  have hss : s - 1 + 1 = s := by omega
  have hsplit : (2:ℚ)^s = 2^(s-1) * 2 := by
    calc (2:ℚ)^s = 2^(s-1+1) := by rw [hss]
    _ = 2^(s-1)*2 := pow_succ 2 (s-1)
  have h53 : (2:ℚ)^(s-1) * 2^53 ≤ (p:ℚ) := by
    have hn : (2:ℕ)^(s-1) * 2^53 ≤ p := by
      have heq : (2:ℕ)^(s-1) * 2^53 = 2^(52+s) := by rw [← pow_add]; congr 1; omega
      rw [heq]; exact hlo
    exact_mod_cast hn
  rw [hsplit] at hAq hBq
  have hzpow : (2:ℚ)^(e + (s:ℤ)) = (2:ℚ)^e * ((2:ℚ)^(s-1) * 2) := by
    rw [zpow_add₀ (by norm_num : (2:ℚ) ≠ 0), zpow_natCast, hsplit]
  have hEpos : (0:ℚ) < (2:ℚ)^e := by positivity
  constructor
  · have key : (p:ℚ) * (1 - 1/2^53) ≤ (rshiftRound p s : ℚ) * ((2:ℚ)^(s-1) * 2) := by
      nlinarith [hBq, h53]
    calc (p:ℚ) * (2:ℚ)^e * (1 - 1/2^53) = ((p:ℚ) * (1 - 1/2^53)) * (2:ℚ)^e := by ring
    _ ≤ ((rshiftRound p s : ℚ) * ((2:ℚ)^(s-1) * 2)) * (2:ℚ)^e :=
        mul_le_mul_of_nonneg_right key hEpos.le
    _ = (rshiftRound p s : ℚ) * (2:ℚ)^(e + (s:ℤ)) := by rw [hzpow]; ring
  · have key : (rshiftRound p s : ℚ) * ((2:ℚ)^(s-1) * 2) ≤ (p:ℚ) * (1 + 1/2^53) := by
      nlinarith [hAq, h53]
    calc (rshiftRound p s : ℚ) * (2:ℚ)^(e + (s:ℤ))
        = ((rshiftRound p s : ℚ) * ((2:ℚ)^(s-1) * 2)) * (2:ℚ)^e := by rw [hzpow]; ring
    _ ≤ ((p:ℚ) * (1 + 1/2^53)) * (2:ℚ)^e := mul_le_mul_of_nonneg_right key hEpos.le
    _ = (p:ℚ) * (2:ℚ)^e * (1 + 1/2^53) := by ring

theorem normD_val_bounds (p : ℕ) (e : ℤ) (hp : p < 2 ^ fuelN) :
    (p:ℚ) * (2:ℚ)^e * (1 - 1/2^53) ≤ (normD p e).val ∧
    (normD p e).val ≤ (p:ℚ) * (2:ℚ)^e * (1 + 1/2^53) := by
  by_cases h1 : p < 2^53
  · rw [normD_val_small p e h1]
    clear hp
    have hpos : (0:ℚ) ≤ (p:ℚ) * (2:ℚ)^e := by positivity
    constructor <;> nlinarith [hpos]
  · push_neg at h1
    have hl53 : 53 ≤ log2F fuelN p := log2F_ge p 53 hp h1
    obtain ⟨hl1, hl2⟩ := log2F_spec fuelN p (le_trans (by norm_num) h1) hp
    have hlo : 2 ^ (52 + (log2F fuelN p - 52)) ≤ p := by
      have heq : 52 + (log2F fuelN p - 52) = log2F fuelN p := by omega
      rw [heq]; exact hl1
    have hcast : ((log2F fuelN p - 52 : ℕ) : ℤ) = (log2F fuelN p : ℤ) - 52 := by omega
    have hval : (normD p e).val =
        (rshiftRound p (log2F fuelN p - 52) : ℚ) *
          (2:ℚ)^(e + ((log2F fuelN p - 52 : ℕ) : ℤ)) := by
      rw [normD, if_neg (not_lt.mpr h1)]
      split_ifs with h2
      · simp only [D.val]
        rw [h2, hcast]
        push_cast
        rw [show e + ((log2F fuelN p : ℤ) - 52) + 1 = (e + ((log2F fuelN p : ℤ) - 52)) + 1
          from by ring]
        rw [zpow_add_one₀ (by norm_num : (2:ℚ) ≠ 0)]
        ring
      · simp only [D.val]
        rw [hcast]
    rw [hval]
    exact normD_big_aux p e (log2F fuelN p - 52) (by omega) hlo

theorem mul_m_lt_106 (a b : D) (ha : a.m < 2 ^ 53) (hb : b.m < 2 ^ 53) :
    a.m * b.m < 2 ^ 106 := by
  calc a.m * b.m ≤ a.m * 2 ^ 53 := Nat.mul_le_mul_left _ (le_of_lt hb)
  _ < 2 ^ 53 * 2 ^ 53 := by
      have hpos : 0 < (2:ℕ) ^ 53 := Nat.pos_pow_of_pos _ (by norm_num)
      exact (Nat.mul_lt_mul_right hpos).mpr ha
  _ = 2 ^ 106 := by rw [← pow_add]

theorem pow106_lt_fuel : (2:ℕ) ^ 106 < 2 ^ fuelN :=
  Nat.pow_lt_pow_right (by norm_num) (by norm_num [fuelN])

theorem dmul_m_lt (a b : D) (ha : a.m < 2 ^ 53) (hb : b.m < 2 ^ 53) :
    (dmul a b).m < 2 ^ 53 :=
  normD_m_lt _ _ (lt_trans (mul_m_lt_106 a b ha hb) pow106_lt_fuel)

theorem dmul_e_lb (a b : D) : a.e + b.e - 52 ≤ (dmul a b).e := normD_e_lb _ _

theorem dmul_e_ub (a b : D) (ha : a.m < 2 ^ 53) (hb : b.m < 2 ^ 53) :
    (dmul a b).e ≤ a.e + b.e + 54 :=
  normD_e_ub _ _ (mul_m_lt_106 a b ha hb)

theorem dmul_val_bounds (a b : D) (ha : a.m < 2 ^ 53) (hb : b.m < 2 ^ 53) :
    a.val * b.val * (1 - 1/2^53) ≤ (dmul a b).val ∧
    (dmul a b).val ≤ a.val * b.val * (1 + 1/2^53) := by
  have hpf : a.m * b.m < 2 ^ fuelN := lt_trans (mul_m_lt_106 a b ha hb) pow106_lt_fuel
  have hbounds := normD_val_bounds (a.m * b.m) (a.e + b.e) hpf
  have hids : ((a.m * b.m : ℕ) : ℚ) * (2:ℚ)^(a.e + b.e) = a.val * b.val := by
    simp only [D.val]
    push_cast
    rw [zpow_add₀ (by norm_num : (2:ℚ) ≠ 0)]
    ring
  rw [hids] at hbounds
  exact hbounds

theorem dadd_sum_eq (a b : D) :
    ((a.m * 2 ^ (a.e - min a.e b.e).toNat + b.m * 2 ^ (b.e - min a.e b.e).toNat : ℕ) : ℚ) *
      (2:ℚ)^(min a.e b.e) = a.val + b.val := by
  have hta : ((a.e - min a.e b.e).toNat : ℤ) = a.e - min a.e b.e :=
    Int.toNat_of_nonneg (by omega)
  have htb : ((b.e - min a.e b.e).toNat : ℤ) = b.e - min a.e b.e :=
    Int.toNat_of_nonneg (by omega)
  simp only [D.val]
  push_cast
  rw [add_mul]
  have hea : a.e - min a.e b.e + min a.e b.e = a.e := by omega
  have heb : b.e - min a.e b.e + min a.e b.e = b.e := by omega
  congr 1
  · rw [mul_assoc, ← zpow_natCast (2:ℚ) (a.e - min a.e b.e).toNat, hta,
      ← zpow_add₀ (by norm_num : (2:ℚ) ≠ 0), hea]
  · rw [mul_assoc, ← zpow_natCast (2:ℚ) (b.e - min a.e b.e).toNat, htb,
      ← zpow_add₀ (by norm_num : (2:ℚ) ≠ 0), heb]

theorem dadd_val_bounds (a b : D) (ha : a.m < 2 ^ 53) (hb : b.m < 2 ^ 53)
    (hae1 : -600 ≤ a.e) (hae2 : a.e ≤ 600) (hbe1 : -600 ≤ b.e) (hbe2 : b.e ≤ 600) :
    (a.val + b.val) * (1 - 1/2^53) ≤ (dadd a b).val ∧
    (dadd a b).val ≤ (a.val + b.val) * (1 + 1/2^53) := by
  have hta : (a.e - min a.e b.e).toNat ≤ 1200 := by omega
  have htb : (b.e - min a.e b.e).toNat ≤ 1200 := by omega
  have hp : a.m * 2 ^ (a.e - min a.e b.e).toNat + b.m * 2 ^ (b.e - min a.e b.e).toNat
      < 2 ^ fuelN := by
    have h1 : a.m * 2 ^ (a.e - min a.e b.e).toNat ≤ 2 ^ 53 * 2 ^ 1200 :=
      Nat.mul_le_mul (le_of_lt ha) (Nat.pow_le_pow_right (by norm_num) hta)
    have h2 : b.m * 2 ^ (b.e - min a.e b.e).toNat ≤ 2 ^ 53 * 2 ^ 1200 :=
      Nat.mul_le_mul (le_of_lt hb) (Nat.pow_le_pow_right (by norm_num) htb)
    have h3 : (2:ℕ) ^ 53 * 2 ^ 1200 + 2 ^ 53 * 2 ^ 1200 = 2 ^ 1254 := by
      have he : (53 : ℕ) + 1200 + 1 = 1254 := by norm_num
      rw [← two_mul, ← pow_add, ← pow_succ', he]
    have h4 : (2:ℕ) ^ 1254 < 2 ^ fuelN :=
      Nat.pow_lt_pow_right (by norm_num) (by norm_num [fuelN])
    omega
  have hbounds := normD_val_bounds _ (min a.e b.e) hp
  rw [dadd_sum_eq a b] at hbounds
  rw [dadd]
  exact hbounds

theorem dofNat_val (v : ℕ) (hv : v < 2 ^ 53) : (dofNat v).val = (v : ℚ) := by
  rw [dofNat, normD_val_small v 0 hv]
  simp

theorem dofNat_m_lt (v : ℕ) (hv : v < 2 ^ 53) : (dofNat v).m < 2 ^ 53 :=
  normD_m_lt v 0 (lt_trans hv (Nat.pow_lt_pow_right (by norm_num) (by norm_num [fuelN])))

theorem dofNat_e_lb (v : ℕ) : -52 ≤ (dofNat v).e := by
  have := normD_e_lb v 0
  simpa using this

theorem dofNat_e_ub (v : ℕ) (hv : v < 2 ^ 53) : (dofNat v).e ≤ 54 := by
  have := normD_e_ub v 0 (lt_trans hv (Nat.pow_lt_pow_right (by norm_num) (by norm_num)))
  simpa using this

theorem c255_m_lt : c255.m < 2 ^ 53 := by norm_num [c255]

theorem c255_val_bounds :
    (1/255 : ℚ) * (1 - 1/2^53) ≤ c255.val ∧ c255.val ≤ (1/255 : ℚ) * (1 + 1/2^53) := by
  have hval : c255.val = (4521260802379792 : ℚ) * (2:ℚ)^(-60 : ℤ) := rfl
  have hz : (2:ℚ)^(-60 : ℤ) = 1/2^60 := by
    rw [zpow_neg]
    norm_num
  rw [hval, hz]
  norm_num

/-! ## The compositing pipeline of `overlay_image` (src/app.py lines 44-52)

Per output channel, the code computes (with `c = 1 / 255.0` rounded to
binary64, `mv` the mask channel, `wv = 255 - gray(mask)` the derived
background weight):
`np.uint8(cv.addWeighted(fg*c * (mask*c), 255.0, bg*c * (bgmask*c), 255.0, 0.0))`,
i.e. `np_uint8 (t1*255 + t2*255)` with every operation rounded to binary64. -/

/-- One masked, normalised channel term: `(x * (1/255.0)) * (y * (1/255.0))`
in binary64 (`x` an image channel value, `y` a mask weight). -/
def chanD (x y : ℕ) : D := dmul (dmul (dofNat x) c255) (dmul (dofNat y) c255)

/-- The call `cv.addWeighted(t1, 255.0, t2, 255.0, 0.0)` on binary64 scalars:
`t1 * 255.0 + t2 * 255.0` (adding the zero `gamma` is exact). -/
def addWeightedD (t1 t2 : D) : D := dadd (dmul t1 (dofNat 255)) (dmul t2 (dofNat 255))

/-- One full output channel of `overlay_image`: foreground channel `v` with
mask weight `m`, background channel `b` with weight `w`. -/
def overlayChan (v m b w : ℕ) : ℕ := np_uint8 (addWeightedD (chanD v m) (chanD b w))

theorem interval_mul {x y lx hx ly hy : ℚ} (hx0 : 0 ≤ lx) (hy0 : 0 ≤ ly)
    (h1 : lx ≤ x) (h2 : x ≤ hx) (h3 : ly ≤ y) (h4 : y ≤ hy) :
    lx * ly ≤ x * y ∧ x * y ≤ hx * hy := by
  constructor
  · exact mul_le_mul h1 h3 hy0 (le_trans hx0 h1)
  · exact mul_le_mul h2 h4 (le_trans hy0 h3) (le_trans (le_trans hx0 h1) h2)

theorem scD_m_lt (x : ℕ) (hx : x ≤ 255) : (dmul (dofNat x) c255).m < 2 ^ 53 :=
  dmul_m_lt _ _ (dofNat_m_lt x (lt_of_le_of_lt hx (by norm_num))) c255_m_lt

theorem scD_e_lb (x : ℕ) : -164 ≤ (dmul (dofNat x) c255).e := by
  have h1 := dofNat_e_lb x
  have h2 := dmul_e_lb (dofNat x) c255
  have hc : c255.e = -60 := rfl
  rw [hc] at h2
  omega

theorem scD_e_ub (x : ℕ) (hx : x ≤ 255) : (dmul (dofNat x) c255).e ≤ 48 := by
  have h1 := dofNat_e_ub x (lt_of_le_of_lt hx (by norm_num))
  have h2 := dmul_e_ub (dofNat x) c255 (dofNat_m_lt x (lt_of_le_of_lt hx (by norm_num))) c255_m_lt
  have hc : c255.e = -60 := rfl
  rw [hc] at h2
  omega

theorem scD_val_bounds (x : ℕ) (hx : x ≤ 255) :
    (x:ℚ) * (1/255) * (1 - 1/2^53)^2 ≤ (dmul (dofNat x) c255).val ∧
    (dmul (dofNat x) c255).val ≤ (x:ℚ) * (1/255) * (1 + 1/2^53)^2 := by
  have hxm := dofNat_m_lt x (lt_of_le_of_lt hx (by norm_num))
  have hmain := dmul_val_bounds (dofNat x) c255 hxm c255_m_lt
  rw [dofNat_val x (lt_of_le_of_lt hx (by norm_num))] at hmain
  have hc := c255_val_bounds
  have hx0 : (0:ℚ) ≤ (x:ℚ) := Nat.cast_nonneg x
  have hprod := interval_mul (x := (x:ℚ)) (y := c255.val) hx0 (by norm_num)
    le_rfl le_rfl hc.1 hc.2
  constructor
  · calc (x:ℚ) * (1/255) * (1 - 1/2^53)^2
        = ((x:ℚ) * ((1/255) * (1 - 1/2^53))) * (1 - 1/2^53) := by ring
    _ ≤ ((x:ℚ) * c255.val) * (1 - 1/2^53) := by
        have := hprod.1
        nlinarith [this]
    _ ≤ (dmul (dofNat x) c255).val := hmain.1
  · calc (dmul (dofNat x) c255).val ≤ (x:ℚ) * c255.val * (1 + 1/2^53) := hmain.2
    _ ≤ ((x:ℚ) * ((1/255) * (1 + 1/2^53))) * (1 + 1/2^53) := by
        have := hprod.2
        nlinarith [this]
    _ = (x:ℚ) * (1/255) * (1 + 1/2^53)^2 := by ring

theorem chanD_m_lt (x y : ℕ) (hx : x ≤ 255) (hy : y ≤ 255) : (chanD x y).m < 2 ^ 53 :=
  dmul_m_lt _ _ (scD_m_lt x hx) (scD_m_lt y hy)

theorem chanD_e_lb (x y : ℕ) : -380 ≤ (chanD x y).e := by
  have h1 := scD_e_lb x
  have h2 := scD_e_lb y
  have h3 := dmul_e_lb (dmul (dofNat x) c255) (dmul (dofNat y) c255)
  rw [chanD]
  omega

theorem chanD_e_ub (x y : ℕ) (hx : x ≤ 255) (hy : y ≤ 255) : (chanD x y).e ≤ 150 := by
  have h1 := scD_e_ub x hx
  have h2 := scD_e_ub y hy
  have h3 := dmul_e_ub (dmul (dofNat x) c255) (dmul (dofNat y) c255)
    (scD_m_lt x hx) (scD_m_lt y hy)
  rw [chanD]
  omega

theorem chanD_val_bounds (x y : ℕ) (hx : x ≤ 255) (hy : y ≤ 255) :
    (x:ℚ) * (y:ℚ) * (1/65025) * (1 - 1/2^53)^5 ≤ (chanD x y).val ∧
    (chanD x y).val ≤ (x:ℚ) * (y:ℚ) * (1/65025) * (1 + 1/2^53)^5 := by
  have hbx := scD_val_bounds x hx
  have hby := scD_val_bounds y hy
  have hx0 : (0:ℚ) ≤ (x:ℚ) * (1/255) * (1 - 1/2^53)^2 := by positivity
  have hy0 : (0:ℚ) ≤ (y:ℚ) * (1/255) * (1 - 1/2^53)^2 := by positivity
  have hprod := interval_mul hx0 hy0 hbx.1 hbx.2 hby.1 hby.2
  have hmain := dmul_val_bounds (dmul (dofNat x) c255) (dmul (dofNat y) c255)
    (scD_m_lt x hx) (scD_m_lt y hy)
  rw [chanD]
  constructor
  · calc (x:ℚ) * (y:ℚ) * (1/65025) * (1 - 1/2^53)^5
        = ((x:ℚ) * (1/255) * (1 - 1/2^53)^2) * ((y:ℚ) * (1/255) * (1 - 1/2^53)^2) *
            (1 - 1/2^53) := by ring
    _ ≤ (dmul (dofNat x) c255).val * (dmul (dofNat y) c255).val * (1 - 1/2^53) := by
        have := hprod.1
        nlinarith [this]
    _ ≤ (dmul (dmul (dofNat x) c255) (dmul (dofNat y) c255)).val := hmain.1
  · calc (dmul (dmul (dofNat x) c255) (dmul (dofNat y) c255)).val
        ≤ (dmul (dofNat x) c255).val * (dmul (dofNat y) c255).val * (1 + 1/2^53) := hmain.2
    _ ≤ (((x:ℚ) * (1/255) * (1 + 1/2^53)^2) * ((y:ℚ) * (1/255) * (1 + 1/2^53)^2)) *
          (1 + 1/2^53) := by
        have := hprod.2
        nlinarith [this]
    _ = (x:ℚ) * (y:ℚ) * (1/65025) * (1 + 1/2^53)^5 := by ring

theorem uD_m_lt (x y : ℕ) (hx : x ≤ 255) (hy : y ≤ 255) :
    (dmul (chanD x y) (dofNat 255)).m < 2 ^ 53 :=
  dmul_m_lt _ _ (chanD_m_lt x y hx hy) (dofNat_m_lt 255 (by norm_num))

theorem uD_e_lb (x y : ℕ) : -484 ≤ (dmul (chanD x y) (dofNat 255)).e := by
  have h1 := chanD_e_lb x y
  have h2 := dofNat_e_lb 255
  have h3 := dmul_e_lb (chanD x y) (dofNat 255)
  omega

theorem uD_e_ub (x y : ℕ) (hx : x ≤ 255) (hy : y ≤ 255) :
    (dmul (chanD x y) (dofNat 255)).e ≤ 258 := by
  have h1 := chanD_e_ub x y hx hy
  have h2 := dofNat_e_ub 255 (by norm_num)
  have h3 := dmul_e_ub (chanD x y) (dofNat 255) (chanD_m_lt x y hx hy)
    (dofNat_m_lt 255 (by norm_num))
  omega

theorem uD_val_bounds (x y : ℕ) (hx : x ≤ 255) (hy : y ≤ 255) :
    (x:ℚ) * (y:ℚ) * (1/255) * (1 - 1/2^53)^6 ≤ (dmul (chanD x y) (dofNat 255)).val ∧
    (dmul (chanD x y) (dofNat 255)).val ≤ (x:ℚ) * (y:ℚ) * (1/255) * (1 + 1/2^53)^6 := by
  have hbc := chanD_val_bounds x y hx hy
  have hmain := dmul_val_bounds (chanD x y) (dofNat 255) (chanD_m_lt x y hx hy)
    (dofNat_m_lt 255 (by norm_num))
  rw [dofNat_val 255 (by norm_num)] at hmain
  constructor
  · calc (x:ℚ) * (y:ℚ) * (1/255) * (1 - 1/2^53)^6
        = ((x:ℚ) * (y:ℚ) * (1/65025) * (1 - 1/2^53)^5) * 255 * (1 - 1/2^53) := by ring
    _ ≤ (chanD x y).val * 255 * (1 - 1/2^53) := by
        have := hbc.1
        nlinarith [this]
    _ = (chanD x y).val * (255:ℚ) * (1 - 1/2^53) := by norm_num
    _ ≤ (dmul (chanD x y) (dofNat 255)).val := hmain.1
  · calc (dmul (chanD x y) (dofNat 255)).val
        ≤ (chanD x y).val * (255:ℚ) * (1 + 1/2^53) := hmain.2
    _ ≤ ((x:ℚ) * (y:ℚ) * (1/65025) * (1 + 1/2^53)^5) * 255 * (1 + 1/2^53) := by
        have := hbc.2
        nlinarith [this]
    _ = (x:ℚ) * (y:ℚ) * (1/255) * (1 + 1/2^53)^6 := by ring

/-- Master float bound: the binary64 value fed to `np.uint8` is within
relative error `(1 ± 2⁻⁵³)⁷` of the exact weighted sum `(v*m + b*w) / 255`. -/
theorem addW_val_bounds (v m b w : ℕ) (hv : v ≤ 255) (hm : m ≤ 255)
    (hb : b ≤ 255) (hw : w ≤ 255) :
    ((v:ℚ) * m + (b:ℚ) * w) * (1/255) * (1 - 1/2^53)^7 ≤
      (addWeightedD (chanD v m) (chanD b w)).val ∧
    (addWeightedD (chanD v m) (chanD b w)).val ≤
      ((v:ℚ) * m + (b:ℚ) * w) * (1/255) * (1 + 1/2^53)^7 := by
  have h1 := uD_val_bounds v m hv hm
  have h2 := uD_val_bounds b w hb hw
  have hmain := dadd_val_bounds (dmul (chanD v m) (dofNat 255))
    (dmul (chanD b w) (dofNat 255))
    (uD_m_lt v m hv hm) (uD_m_lt b w hb hw)
    (by have := uD_e_lb v m; omega) (by have := uD_e_ub v m hv hm; omega)
    (by have := uD_e_lb b w; omega) (by have := uD_e_ub b w hb hw; omega)
  rw [addWeightedD]
  constructor
  · calc ((v:ℚ) * m + (b:ℚ) * w) * (1/255) * (1 - 1/2^53)^7
        = ((v:ℚ) * (m:ℚ) * (1/255) * (1 - 1/2^53)^6 +
            (b:ℚ) * (w:ℚ) * (1/255) * (1 - 1/2^53)^6) * (1 - 1/2^53) := by ring
    _ ≤ ((dmul (chanD v m) (dofNat 255)).val + (dmul (chanD b w) (dofNat 255)).val) *
          (1 - 1/2^53) := by nlinarith [h1.1, h2.1]
    _ ≤ (dadd (dmul (chanD v m) (dofNat 255)) (dmul (chanD b w) (dofNat 255))).val :=
        hmain.1
  · calc (dadd (dmul (chanD v m) (dofNat 255)) (dmul (chanD b w) (dofNat 255))).val
        ≤ ((dmul (chanD v m) (dofNat 255)).val + (dmul (chanD b w) (dofNat 255)).val) *
          (1 + 1/2^53) := hmain.2
    _ ≤ ((v:ℚ) * (m:ℚ) * (1/255) * (1 + 1/2^53)^6 +
          (b:ℚ) * (w:ℚ) * (1/255) * (1 + 1/2^53)^6) * (1 + 1/2^53) := by
        nlinarith [h1.2, h2.2]
    _ = ((v:ℚ) * m + (b:ℚ) * w) * (1/255) * (1 + 1/2^53)^7 := by ring

theorem np_uint8_eq (x : D) : np_uint8 x = (⌊x.val⌋).toNat % 256 := by
  rw [np_uint8, D.val]
  split_ifs with h
  · have he : ((x.e.toNat : ℕ) : ℤ) = x.e := Int.toNat_of_nonneg h
    have hz : (2:ℚ) ^ x.e = (2:ℚ) ^ x.e.toNat := by
      conv_lhs => rw [← he, zpow_natCast]
    have hval : (x.m : ℚ) * (2:ℚ) ^ x.e = ((x.m * 2 ^ x.e.toNat : ℕ) : ℚ) := by
      rw [hz]
      push_cast
      ring
    rw [hval, Int.floor_natCast, Int.toNat_natCast]
  · push_neg at h
    have hk : (2:ℚ) ^ x.e = (((2:ℕ) ^ (-x.e).toNat : ℕ) : ℚ)⁻¹ := by
      have he : x.e = -(((-x.e).toNat : ℕ) : ℤ) := by omega
      conv_lhs => rw [he]
      rw [zpow_neg, zpow_natCast]
      congr 1
      push_cast
      ring
    rw [hk]
    have hn : (0:ℚ) < (((2:ℕ) ^ (-x.e).toNat : ℕ) : ℚ) := by positivity
    have hfl : ⌊(x.m : ℚ) * (((2:ℕ) ^ (-x.e).toNat : ℕ) : ℚ)⁻¹⌋ =
        ((x.m / 2 ^ (-x.e).toNat : ℕ) : ℤ) := by
      have h1 : (x.m / 2 ^ (-x.e).toNat) * 2 ^ (-x.e).toNat ≤ x.m :=
        Nat.div_mul_le_self _ _
      have h2 : x.m < (x.m / 2 ^ (-x.e).toNat + 1) * 2 ^ (-x.e).toNat := by
        have hdm := Nat.div_add_mod x.m (2 ^ (-x.e).toNat)
        have hr : x.m % 2 ^ (-x.e).toNat < 2 ^ (-x.e).toNat :=
          Nat.mod_lt _ (Nat.pos_pow_of_pos _ (by norm_num))
        have hexp : (x.m / 2 ^ (-x.e).toNat + 1) * 2 ^ (-x.e).toNat =
            2 ^ (-x.e).toNat * (x.m / 2 ^ (-x.e).toNat) + 2 ^ (-x.e).toNat := by ring
        omega
      rw [← div_eq_mul_inv, Int.floor_eq_iff]
      constructor
      · rw [le_div_iff₀ hn]
        exact_mod_cast h1
      · rw [div_lt_iff₀ hn]
        exact_mod_cast h2
    rw [hfl, Int.toNat_natCast]

set_option maxHeartbeats 2000000 in
theorem pow7_lo : (1 - 1/2^49 : ℚ) ≤ (1 - 1/2^53)^7 := by norm_num

set_option maxHeartbeats 2000000 in
theorem pow7_hi : ((1 + 1/2^53 : ℚ))^7 ≤ 1 + 1/2^49 := by norm_num

set_option maxHeartbeats 4000000 in
/-- The float pipeline agrees with exact integer arithmetic: for 8-bit
inputs, the output channel is `⌊(v*m + b*w) / 255⌋ % 256`, except that when
`255` divides `v*m + b*w` exactly the accumulated rounding error may land
the float just below the integer and truncation loses one unit. -/
theorem overlayChan_floor (v m b w : ℕ) (hv : v ≤ 255) (hm : m ≤ 255)
    (hb : b ≤ 255) (hw : w ≤ 255) :
    (¬ 255 ∣ (v * m + b * w) →
      overlayChan v m b w = ((v * m + b * w) / 255) % 256) ∧
    (255 ∣ (v * m + b * w) →
      overlayChan v m b w = ((v * m + b * w) / 255) % 256 ∨
      overlayChan v m b w = ((v * m + b * w) / 255 - 1) % 256 ∧
        1 ≤ (v * m + b * w) / 255) := by
  obtain ⟨hlo, hhi⟩ := addW_val_bounds v m b w hv hm hb hw
  have hVept : overlayChan v m b w =
      (⌊(addWeightedD (chanD v m) (chanD b w)).val⌋).toNat % 256 := by
    rw [overlayChan, np_uint8_eq]
  have hn : ((v * m + b * w : ℕ) : ℚ) = (v:ℚ)*m + (b:ℚ)*w := by push_cast; ring
  rw [← hn] at hlo hhi
  have hq7lo : (1 - 1/2^49 : ℚ) ≤ (1 - 1/2^53)^7 := pow7_lo
  have hq7hi : ((1 + 1/2^53 : ℚ))^7 ≤ 1 + 1/2^49 := pow7_hi
  have hn0 : (0:ℚ) ≤ ((v * m + b * w : ℕ) : ℚ) * (1/255) := by positivity
  have hVlo : ((v * m + b * w : ℕ) : ℚ) * (1/255) * (1 - 1/2^49) ≤
      (addWeightedD (chanD v m) (chanD b w)).val := by
    calc ((v * m + b * w : ℕ) : ℚ) * (1/255) * (1 - 1/2^49)
        ≤ ((v * m + b * w : ℕ) : ℚ) * (1/255) * (1 - 1/2^53)^7 :=
          mul_le_mul_of_nonneg_left hq7lo hn0
    _ ≤ _ := hlo
  have hVhi : (addWeightedD (chanD v m) (chanD b w)).val ≤
      ((v * m + b * w : ℕ) : ℚ) * (1/255) * (1 + 1/2^49) := by
    calc (addWeightedD (chanD v m) (chanD b w)).val
        ≤ ((v * m + b * w : ℕ) : ℚ) * (1/255) * (1 + 1/2^53)^7 := hhi
    _ ≤ ((v * m + b * w : ℕ) : ℚ) * (1/255) * (1 + 1/2^49) :=
          mul_le_mul_of_nonneg_left hq7hi hn0
  have hdm := Nat.div_add_mod (v * m + b * w) 255
  have hrlt : (v * m + b * w) % 255 < 255 := Nat.mod_lt _ (by norm_num)
  have hnle : v * m + b * w ≤ 130050 := by
    have h1 : v * m ≤ 65025 := Nat.mul_le_mul hv hm
    have h2 : b * w ≤ 65025 := Nat.mul_le_mul hb hw
    omega
  have hqle : (v * m + b * w) / 255 ≤ 510 := by omega
  have hcast : ((v * m + b * w : ℕ) : ℚ) =
      255 * (((v * m + b * w) / 255 : ℕ) : ℚ) + (((v * m + b * w) % 255 : ℕ) : ℚ) := by
    exact_mod_cast congrArg (Nat.cast (R := ℚ)) hdm.symm
  have hqleQ : (((v * m + b * w) / 255 : ℕ) : ℚ) ≤ 510 := by exact_mod_cast hqle
  have hq0Q : (0:ℚ) ≤ (((v * m + b * w) / 255 : ℕ) : ℚ) := Nat.cast_nonneg _
  have hrltQ : (((v * m + b * w) % 255 : ℕ) : ℚ) ≤ 254 := by
    exact_mod_cast (by omega : (v * m + b * w) % 255 ≤ 254)
  have hr0Q : (0:ℚ) ≤ (((v * m + b * w) % 255 : ℕ) : ℚ) := Nat.cast_nonneg _
  constructor
  · intro hndvd
    have hrpos : 1 ≤ (v * m + b * w) % 255 := by
      rcases Nat.eq_zero_or_pos ((v * m + b * w) % 255) with h0 | h0
      · exact absurd (Nat.dvd_of_mod_eq_zero h0) hndvd
      · omega
    have hrposQ : (1:ℚ) ≤ (((v * m + b * w) % 255 : ℕ) : ℚ) := by exact_mod_cast hrpos
    have hlow : ((((v * m + b * w) / 255 : ℕ)) : ℚ) ≤
        (addWeightedD (chanD v m) (chanD b w)).val := by
      nlinarith [hVlo, hcast, hrposQ, hqleQ, hq0Q, hrltQ]
    have hup : (addWeightedD (chanD v m) (chanD b w)).val <
        ((((v * m + b * w) / 255 : ℕ)) : ℚ) + 1 := by
      nlinarith [hVhi, hcast, hrposQ, hqleQ, hq0Q, hrltQ]
    have hfl : ⌊(addWeightedD (chanD v m) (chanD b w)).val⌋ =
        (((v * m + b * w) / 255 : ℕ) : ℤ) := by
      rw [Int.floor_eq_iff]
      constructor
      · exact_mod_cast hlow
      · exact_mod_cast hup
    rw [hVept, hfl, Int.toNat_natCast]
  · intro hdvd
    have hr0 : (v * m + b * w) % 255 = 0 := Nat.mod_eq_zero_of_dvd hdvd
    have hr0Q : (((v * m + b * w) % 255 : ℕ) : ℚ) = 0 := by rw [hr0]; norm_num
    have hr0Q2 : (((v * m + b * w) % 255 : ℕ) : ℚ) = 0 := by rw [hr0]; norm_num
    have hupQ : (addWeightedD (chanD v m) (chanD b w)).val <
        ((((v * m + b * w) / 255 : ℕ)) : ℚ) + 1 := by
      nlinarith [hVhi, hcast, hr0Q2, hqleQ, hq0Q]
    have hlowQ : ((((v * m + b * w) / 255 : ℕ)) : ℚ) - 1 ≤
        (addWeightedD (chanD v m) (chanD b w)).val := by
      nlinarith [hVlo, hcast, hr0Q2, hqleQ, hq0Q]
    have h0Q : (0:ℚ) ≤ (addWeightedD (chanD v m) (chanD b w)).val := by
      nlinarith [hVlo, hcast, hr0Q2, hqleQ, hq0Q]
    have hub : ⌊(addWeightedD (chanD v m) (chanD b w)).val⌋ <
        (((v * m + b * w) / 255 : ℕ) : ℤ) + 1 := by
      apply Int.floor_lt.mpr
      exact_mod_cast hupQ
    have hlb : (((v * m + b * w) / 255 : ℕ) : ℤ) - 1 ≤
        ⌊(addWeightedD (chanD v m) (chanD b w)).val⌋ := by
      apply Int.le_floor.mpr
      exact_mod_cast hlowQ
    have h0 : (0:ℤ) ≤ ⌊(addWeightedD (chanD v m) (chanD b w)).val⌋ := by
      apply Int.le_floor.mpr
      exact_mod_cast h0Q
    rcases (by omega : ⌊(addWeightedD (chanD v m) (chanD b w)).val⌋ =
        (((v * m + b * w) / 255 : ℕ) : ℤ) ∨
        (⌊(addWeightedD (chanD v m) (chanD b w)).val⌋ =
          (((v * m + b * w) / 255 : ℕ) : ℤ) - 1 ∧ 1 ≤ (v * m + b * w) / 255)) with hc | hc
    · left
      rw [hVept, hc, Int.toNat_natCast]
    · right
      refine ⟨?_, hc.2⟩
      rw [hVept, hc.1]
      have htn : ((((v * m + b * w) / 255 : ℕ) : ℤ) - 1).toNat =
          (v * m + b * w) / 255 - 1 := by omega
      rw [htn]

/-! ## Images and `overlay_image` -/

/-- OpenCV fixed-point `BGR2GRAY` for 8-bit pixels:
`(B2Y*b + G2Y*g + R2Y*r + 2^13) >> 14` with `B2Y = 1868`, `G2Y = 9617`,
`R2Y = 4899` (the CV_DESCALE rounding used by `cv.cvtColor`). -/
def bgr2gray (b g r : ℕ) : ℕ := (1868 * b + 9617 * g + 4899 * r + 8192) / 2 ^ 14

/-- A BGR 8-bit image: height, width, and per-pixel channel data (indices
outside the height/width range carry junk and are never observed). -/
structure Img where
  h : ℕ
  w : ℕ
  data : ℕ → ℕ → Fin 3 → Fin 256

/-- numpy broadcast indexing: a dimension of extent 1 is stretched. -/
def bidx (d i : ℕ) : ℕ := if d = 1 then 0 else i

/-- numpy broadcast result extent of two compatible dimensions. -/
def bdim (a b : ℕ) : ℕ := if a = 1 then b else a

/-- numpy broadcast compatibility of two dimensions: equal or one is 1. -/
def bcCompat (a b : ℕ) : Prop := a = b ∨ a = 1 ∨ b = 1

instance (a b : ℕ) : Decidable (bcCompat a b) :=
  inferInstanceAs (Decidable (_ ∨ _ ∨ _))

/-- Grayscale of a mask pixel (`cv.cvtColor(mask, cv.COLOR_BGR2GRAY)`). -/
def grayAt (mask : Img) (y x : ℕ) : ℕ :=
  bgr2gray (mask.data y x 0) (mask.data y x 1) (mask.data y x 2)

/-- The shapes the numeric ops inside `overlay_image` accept: the two
elementwise products broadcast, and `cv.addWeighted` requires its two
operands to end up the same size. -/
def overlayShapeOK (fg bg mask : Img) : Prop :=
  bcCompat fg.h mask.h ∧ bcCompat fg.w mask.w ∧
  bcCompat bg.h mask.h ∧ bcCompat bg.w mask.w ∧
  bdim fg.h mask.h = bdim bg.h mask.h ∧ bdim fg.w mask.w = bdim bg.w mask.w

instance (fg bg mask : Img) : Decidable (overlayShapeOK fg bg mask) :=
  inferInstanceAs (Decidable (_ ∧ _ ∧ _ ∧ _ ∧ _ ∧ _))

theorem overlayChan_lt (v m b w : ℕ) : overlayChan v m b w < 256 := by
  rw [overlayChan, np_uint8]
  exact Nat.mod_lt _ (by norm_num)

/-- One output pixel channel of `overlay_image`: the foreground weighted by
its own mask channel, the background weighted by `255 - gray(mask)`. -/
def overlayPix (fg bg mask : Img) (y x : ℕ) (ch : Fin 3) : Fin 256 :=
  ⟨overlayChan
      (fg.data (bidx fg.h y) (bidx fg.w x) ch)
      (mask.data (bidx mask.h y) (bidx mask.w x) ch)
      (bg.data (bidx bg.h y) (bidx bg.w x) ch)
      (255 - grayAt mask (bidx mask.h y) (bidx mask.w x)),
    overlayChan_lt _ _ _ _⟩

/-- The function `overlay_image(foreground_image, background_image, foreground_mask)`
from src/app.py lines 44-52.  The broadcast/shape conditions mirror the
numpy elementwise products and `cv.addWeighted`; there is no explicit
dimension validation in the source, so failure (`none`) only arises from
those generic numeric operations. -/
def overlay_image (fg bg mask : Img) : Option Img :=
  if overlayShapeOK fg bg mask then
    some ⟨bdim fg.h mask.h, bdim fg.w mask.w, fun y x ch => overlayPix fg bg mask y x ch⟩
  else none

/-- The frame of constant colour `v` on all three channels. -/
def constImg (h w : ℕ) (v : Fin 256) : Img := ⟨h, w, fun _ _ _ => v⟩

/-- All three inputs have the same spatial dimensions. -/
def dimsAgree (fg bg mask : Img) : Prop :=
  fg.h = mask.h ∧ fg.w = mask.w ∧ bg.h = mask.h ∧ bg.w = mask.w

instance (fg bg mask : Img) : Decidable (dimsAgree fg bg mask) :=
  inferInstanceAs (Decidable (_ ∧ _ ∧ _ ∧ _))

theorem bidx_of_lt (d i : ℕ) (h : i < d) : bidx d i = i := by
  rw [bidx]
  split_ifs with h1
  · omega
  · rfl

theorem bgr2gray_diag (v : ℕ) : bgr2gray v v v = v := by
  rw [bgr2gray]
  have hsum : 1868 * v + 9617 * v + 4899 * v + 8192 = 16384 * v + 8192 := by ring
  rw [hsum]
  omega

theorem bgr2gray_le (b g r : ℕ) (hb : b ≤ 255) (hg : g ≤ 255) (hr : r ≤ 255) :
    bgr2gray b g r ≤ 255 := by
  rw [bgr2gray]
  omega

theorem bdim_self (a : ℕ) : bdim a a = a := by
  rw [bdim]
  split_ifs with h
  · omega
  · rfl

/-- When all three inputs share dimensions, `overlay_image` succeeds and
each in-range output pixel is `overlayChan` of the co-located inputs. -/
theorem overlay_apply_of_dimsAgree (fg bg mask : Img) (hd : dimsAgree fg bg mask) :
    ∃ out, overlay_image fg bg mask = some out ∧ out.h = mask.h ∧ out.w = mask.w ∧
      ∀ y, y < mask.h → ∀ x, x < mask.w → ∀ ch : Fin 3,
        (out.data y x ch : ℕ) = overlayChan (fg.data y x ch) (mask.data y x ch)
            (bg.data y x ch) (255 - grayAt mask y x) := by
  obtain ⟨h1, h2, h3, h4⟩ := hd
  have hok : overlayShapeOK fg bg mask := by
    refine ⟨Or.inl h1, Or.inl h2, Or.inl h3, Or.inl h4, ?_, ?_⟩
    · rw [h1, h3]
    · rw [h2, h4]
  rw [overlay_image, if_pos hok]
  refine ⟨_, rfl, ?_, ?_, ?_⟩
  · show bdim fg.h mask.h = mask.h
    rw [h1, bdim_self]
  · show bdim fg.w mask.w = mask.w
    rw [h2, bdim_self]
  · intro y hy x hx ch
    show (overlayPix fg bg mask y x ch : ℕ) = _
    have e1 : bidx fg.h y = y := bidx_of_lt _ _ (h1 ▸ hy)
    have e2 : bidx fg.w x = x := bidx_of_lt _ _ (h2 ▸ hx)
    have e3 : bidx bg.h y = y := bidx_of_lt _ _ (h3 ▸ hy)
    have e4 : bidx bg.w x = x := bidx_of_lt _ _ (h4 ▸ hx)
    have e5 : bidx mask.h y = y := bidx_of_lt _ _ hy
    have e6 : bidx mask.w x = x := bidx_of_lt _ _ hx
    simp only [overlayPix, e1, e2, e3, e4, e5, e6]

/-- Per-channel bounds for an equal-channel mask value `m0`: the output is
the floored convex combination, up to one unit of float truncation; at
`m0 = 128` it is the average up to rounding. -/
theorem overlayChan_equal_mask_bounds (v b m0 : ℕ) (hv : v ≤ 255) (hb : b ≤ 255)
    (hm : m0 ≤ 255) :
    (min v b ≤ overlayChan v m0 b (255 - m0) + 1 ∧
     overlayChan v m0 b (255 - m0) ≤ max v b) ∧
    (m0 = 128 →
      v + b ≤ 2 * overlayChan v m0 b (255 - m0) + 4 ∧
      2 * overlayChan v m0 b (255 - m0) ≤ v + b + 1) := by
  obtain ⟨hnd, hd⟩ := overlayChan_floor v m0 b (255 - m0) hv hm hb (by omega)
  have hcases : overlayChan v m0 b (255 - m0) = (v * m0 + b * (255 - m0)) / 255 % 256 ∨
      (overlayChan v m0 b (255 - m0) = ((v * m0 + b * (255 - m0)) / 255 - 1) % 256 ∧
        1 ≤ (v * m0 + b * (255 - m0)) / 255) := by
    by_cases hdvd : 255 ∣ (v * m0 + b * (255 - m0))
    · exact hd hdvd
    · exact Or.inl (hnd hdvd)
  have h1 : min v b * m0 ≤ v * m0 := Nat.mul_le_mul_right _ (min_le_left _ _)
  have h2 : min v b * (255 - m0) ≤ b * (255 - m0) := Nat.mul_le_mul_right _ (min_le_right _ _)
  have h3 : min v b * m0 + min v b * (255 - m0) = min v b * 255 := by
    rw [← Nat.mul_add]
    congr 1
    omega
  have h4 : v * m0 ≤ max v b * m0 := Nat.mul_le_mul_right _ (le_max_left _ _)
  have h5 : b * (255 - m0) ≤ max v b * (255 - m0) := Nat.mul_le_mul_right _ (le_max_right _ _)
  have h6 : max v b * m0 + max v b * (255 - m0) = max v b * 255 := by
    rw [← Nat.mul_add]
    congr 1
    omega
  constructor
  · omega
  · intro h128
    subst h128
    have hqle : (v * 128 + b * (255 - 128)) / 255 ≤ 255 := by omega
    have hout : overlayChan v 128 b (255 - 128) = (v * 128 + b * (255 - 128)) / 255 ∨
        (overlayChan v 128 b (255 - 128) = (v * 128 + b * (255 - 128)) / 255 - 1 ∧
          1 ≤ (v * 128 + b * (255 - 128)) / 255) := by omega
    clear hcases
    omega

/-! ## Claim theorems: the compositor -/

theorem overlayChan_white (v b : ℕ) (hv : v ≤ 255) (hb : b ≤ 255) :
    v ≤ overlayChan v 255 b 0 + 1 ∧ overlayChan v 255 b 0 ≤ v := by
  obtain ⟨_, hd⟩ := overlayChan_floor v 255 b 0 hv (by norm_num) hb (by norm_num)
  have hdvd : 255 ∣ (v * 255 + b * 0) := ⟨v, by ring⟩
  have := hd hdvd
  omega

theorem overlayChan_black (v b : ℕ) (hv : v ≤ 255) (hb : b ≤ 255) :
    b ≤ overlayChan v 0 b 255 + 1 ∧ overlayChan v 0 b 255 ≤ b := by
  obtain ⟨_, hd⟩ := overlayChan_floor v 0 b 255 hv (by norm_num) hb (by norm_num)
  have hdvd : 255 ∣ (v * 0 + b * 255) := ⟨b, by ring⟩
  have := hd hdvd
  omega

/-- C1 (amended).  For frames of equal dimensions and a mask whose three
channels agree pixel-wise, every output channel lies in
`[min(fg,bg) - 1, max(fg,bg)]` — the floored convex combination weighted by
the mask value, up to the one unit that `np.uint8` truncation can lose —
and for mask value 128 each output channel is the average of the co-located
foreground and background channels within a rounding tolerance of two
intensity levels. -/
theorem overlay_equal_channel_mask_blend (fg bg mask : Img) (hd : dimsAgree fg bg mask)
    (hmask : ∀ y x, mask.data y x 1 = mask.data y x 0 ∧ mask.data y x 2 = mask.data y x 0) :
    ∃ out, overlay_image fg bg mask = some out ∧ out.h = mask.h ∧ out.w = mask.w ∧
      ∀ y, y < mask.h → ∀ x, x < mask.w → ∀ ch : Fin 3,
        (min (fg.data y x ch : ℕ) (bg.data y x ch : ℕ) ≤ (out.data y x ch : ℕ) + 1 ∧
          (out.data y x ch : ℕ) ≤ max (fg.data y x ch : ℕ) (bg.data y x ch : ℕ)) ∧
        ((mask.data y x 0 : ℕ) = 128 →
          (fg.data y x ch : ℕ) + (bg.data y x ch : ℕ) ≤ 2 * (out.data y x ch : ℕ) + 4 ∧
          2 * (out.data y x ch : ℕ) ≤ (fg.data y x ch : ℕ) + (bg.data y x ch : ℕ) + 1) := by
  obtain ⟨out, hsome, hh, hw, hpix⟩ := overlay_apply_of_dimsAgree fg bg mask hd
  refine ⟨out, hsome, hh, hw, ?_⟩
  intro y hy x hx ch
  have hmv : (mask.data y x ch : ℕ) = (mask.data y x 0 : ℕ) := by
    obtain ⟨hm1, hm2⟩ := hmask y x
    fin_cases ch
    · rfl
    · exact congrArg Fin.val hm1
    · exact congrArg Fin.val hm2
  have hgray : grayAt mask y x = (mask.data y x 0 : ℕ) := by
    rw [grayAt, (hmask y x).1, (hmask y x).2]
    exact bgr2gray_diag _
  rw [hpix y hy x hx ch, hmv, hgray]
  exact overlayChan_equal_mask_bounds (fg.data y x ch) (bg.data y x ch)
    (mask.data y x 0) (Fin.is_le _) (Fin.is_le _) (Fin.is_le _)

theorem overlay_equal_channel_mask_blend_witness :
    ∃ out, overlay_image (constImg 2 2 10) (constImg 2 2 20) (constImg 2 2 128) =
        some out ∧
      out.h = (constImg 2 2 128).h ∧ out.w = (constImg 2 2 128).w ∧
      ∀ y, y < (constImg 2 2 128).h → ∀ x, x < (constImg 2 2 128).w → ∀ ch : Fin 3,
        (min ((constImg 2 2 10).data y x ch : ℕ) ((constImg 2 2 20).data y x ch : ℕ) ≤
            (out.data y x ch : ℕ) + 1 ∧
          (out.data y x ch : ℕ) ≤
            max ((constImg 2 2 10).data y x ch : ℕ) ((constImg 2 2 20).data y x ch : ℕ)) ∧
        (((constImg 2 2 128).data y x 0 : ℕ) = 128 →
          ((constImg 2 2 10).data y x ch : ℕ) + ((constImg 2 2 20).data y x ch : ℕ) ≤
              2 * (out.data y x ch : ℕ) + 4 ∧
          2 * (out.data y x ch : ℕ) ≤
            ((constImg 2 2 10).data y x ch : ℕ) + ((constImg 2 2 20).data y x ch : ℕ) + 1) :=
  overlay_equal_channel_mask_blend (constImg 2 2 10) (constImg 2 2 20) (constImg 2 2 128)
    ⟨rfl, rfl, rfl, rfl⟩ (fun _ _ => ⟨rfl, rfl⟩)

/-- C1 (counterexample).  With foreground = background = the 1x1 frame of
constant channel value 37 and an equal-channel (white) mask, the claimed
convex combination of the co-located pixels can only be 37, but
`overlay_image` yields 36: float truncation breaks exact convexity. -/
theorem overlay_convex_combination_counterexample :
    (overlay_image (constImg 1 1 37) (constImg 1 1 37) (constImg 1 1 255)).map
      (fun I => (I.data 0 0 0 : ℕ)) = some 36 ∧ (36 : ℕ) ≠ 37 := by
  constructor
  · decide
  · decide

/-- C2 (amended).  For an all-white mask the output equals the foreground
up to the one intensity level that the final `np.uint8` truncation can
lose: each output channel is `F` or `F - 1` (and the background is ignored
entirely).  Exact equality fails; see the counterexample. -/
theorem overlay_white_mask (fg bg : Img) (hbh : bg.h = fg.h) (hbw : bg.w = fg.w) :
    ∃ out, overlay_image fg bg (constImg fg.h fg.w 255) = some out ∧
      out.h = fg.h ∧ out.w = fg.w ∧
      ∀ y, y < fg.h → ∀ x, x < fg.w → ∀ ch : Fin 3,
        (fg.data y x ch : ℕ) ≤ (out.data y x ch : ℕ) + 1 ∧
        (out.data y x ch : ℕ) ≤ (fg.data y x ch : ℕ) := by
  obtain ⟨out, hsome, hh, hw, hpix⟩ := overlay_apply_of_dimsAgree fg bg
    (constImg fg.h fg.w 255) ⟨rfl, rfl, hbh, hbw⟩
  refine ⟨out, hsome, hh, hw, ?_⟩
  intro y hy x hx ch
  have h0 := hpix y hy x hx ch
  have hgray : grayAt (constImg fg.h fg.w 255) y x = 255 := by
    show bgr2gray ((255 : Fin 256) : ℕ) ((255 : Fin 256) : ℕ) ((255 : Fin 256) : ℕ) = 255
    decide
  have hmv : ((constImg fg.h fg.w 255).data y x ch : ℕ) = 255 := by
    show ((255 : Fin 256) : ℕ) = 255
    decide
  rw [hmv, hgray, show (255 - 255 : ℕ) = 0 from rfl] at h0
  rw [h0]
  exact overlayChan_white (fg.data y x ch) (bg.data y x ch) (Fin.is_le _) (Fin.is_le _)

theorem overlay_white_mask_witness :
    ∃ out, overlay_image (constImg 4 4 200) (constImg 4 4 9)
        (constImg (constImg 4 4 200).h (constImg 4 4 200).w 255) = some out ∧
      out.h = (constImg 4 4 200).h ∧ out.w = (constImg 4 4 200).w ∧
      ∀ y, y < (constImg 4 4 200).h → ∀ x, x < (constImg 4 4 200).w → ∀ ch : Fin 3,
        ((constImg 4 4 200).data y x ch : ℕ) ≤ (out.data y x ch : ℕ) + 1 ∧
        (out.data y x ch : ℕ) ≤ ((constImg 4 4 200).data y x ch : ℕ) :=
  overlay_white_mask (constImg 4 4 200) (constImg 4 4 9) rfl rfl

/-- C2 (counterexample).  The spec claims `composite(F, B, white) == F`
exactly.  With `F` the 4x4 frame of constant channel value 33 and `B` of
value 99, the output channel at pixel (0,0) is 32, not 33: the binary64
products underestimate 33 (`33 * (1/255.0) * (255 * (1/255.0)) * 255`
lands just below 33) and `np.uint8` truncates. -/
theorem overlay_white_mask_counterexample :
    (overlay_image (constImg 4 4 33) (constImg 4 4 99) (constImg 4 4 255)).map
      (fun I => (I.data 0 0 0 : ℕ)) = some 32 ∧
    ((constImg 4 4 33).data 0 0 0 : ℕ) = 33 := by
  constructor
  · decide
  · decide

/-- C3 (amended).  For an all-black mask the output equals the background
up to one intensity level of `np.uint8` truncation: each output channel is
`B` or `B - 1` (and the foreground is ignored entirely).  Exact equality
fails; see the counterexample. -/
theorem overlay_black_mask (fg bg : Img) (hbh : bg.h = fg.h) (hbw : bg.w = fg.w) :
    ∃ out, overlay_image fg bg (constImg fg.h fg.w 0) = some out ∧
      out.h = fg.h ∧ out.w = fg.w ∧
      ∀ y, y < fg.h → ∀ x, x < fg.w → ∀ ch : Fin 3,
        (bg.data y x ch : ℕ) ≤ (out.data y x ch : ℕ) + 1 ∧
        (out.data y x ch : ℕ) ≤ (bg.data y x ch : ℕ) := by
  obtain ⟨out, hsome, hh, hw, hpix⟩ := overlay_apply_of_dimsAgree fg bg
    (constImg fg.h fg.w 0) ⟨rfl, rfl, hbh, hbw⟩
  refine ⟨out, hsome, hh, hw, ?_⟩
  intro y hy x hx ch
  have h0 := hpix y hy x hx ch
  have hgray : grayAt (constImg fg.h fg.w 0) y x = 0 := by
    show bgr2gray ((0 : Fin 256) : ℕ) ((0 : Fin 256) : ℕ) ((0 : Fin 256) : ℕ) = 0
    decide
  have hmv : ((constImg fg.h fg.w 0).data y x ch : ℕ) = 0 := by
    show ((0 : Fin 256) : ℕ) = 0
    decide
  rw [hmv, hgray, show (255 - 0 : ℕ) = 255 from rfl] at h0
  rw [h0]
  exact overlayChan_black (fg.data y x ch) (bg.data y x ch) (Fin.is_le _) (Fin.is_le _)

theorem overlay_black_mask_witness :
    ∃ out, overlay_image (constImg 4 4 200) (constImg 4 4 9)
        (constImg (constImg 4 4 200).h (constImg 4 4 200).w 0) = some out ∧
      out.h = (constImg 4 4 200).h ∧ out.w = (constImg 4 4 200).w ∧
      ∀ y, y < (constImg 4 4 200).h → ∀ x, x < (constImg 4 4 200).w → ∀ ch : Fin 3,
        ((constImg 4 4 9).data y x ch : ℕ) ≤ (out.data y x ch : ℕ) + 1 ∧
        (out.data y x ch : ℕ) ≤ ((constImg 4 4 9).data y x ch : ℕ) :=
  overlay_black_mask (constImg 4 4 200) (constImg 4 4 9) rfl rfl

/-- C3 (counterexample).  The spec claims `composite(F, B, black) == B`
exactly; with `B` of constant channel value 33 the output channel is 32. -/
theorem overlay_black_mask_counterexample :
    (overlay_image (constImg 4 4 77) (constImg 4 4 33) (constImg 4 4 0)).map
      (fun I => (I.data 0 0 0 : ℕ)) = some 32 ∧
    ((constImg 4 4 33).data 0 0 0 : ℕ) = 33 := by
  constructor
  · decide
  · decide

/-- The exact integer weighted sum behind one output channel:
foreground times its mask channel plus background times the
`255 - gray(mask)` weight (the float pipeline computes this over 255). -/
def exactN (fg bg mask : Img) (y x : ℕ) (ch : Fin 3) : ℕ :=
  (fg.data y x ch : ℕ) * (mask.data y x ch : ℕ) +
    (bg.data y x ch : ℕ) * (255 - grayAt mask y x)

/-- C4 (amended).  Each 8-bit output pixel is produced by truncating the
binary64 value `masked_fg*255 + masked_bg*255` toward zero and reducing it
modulo 256 — not by rounding or clamping.  Concretely it equals
`⌊(v*m + b*w)/255⌋ % 256`, except that one unit can be lost to float
truncation when 255 divides `v*m + b*w` exactly. -/
theorem overlay_trunc_mod (fg bg mask : Img) (hd : dimsAgree fg bg mask) :
    ∃ out, overlay_image fg bg mask = some out ∧
      ∀ y, y < mask.h → ∀ x, x < mask.w → ∀ ch : Fin 3,
        (¬ 255 ∣ exactN fg bg mask y x ch →
          (out.data y x ch : ℕ) = (exactN fg bg mask y x ch / 255) % 256) ∧
        (255 ∣ exactN fg bg mask y x ch →
          (out.data y x ch : ℕ) = (exactN fg bg mask y x ch / 255) % 256 ∨
          (out.data y x ch : ℕ) = (exactN fg bg mask y x ch / 255 - 1) % 256) := by
  obtain ⟨out, hsome, hh, hw, hpix⟩ := overlay_apply_of_dimsAgree fg bg mask hd
  refine ⟨out, hsome, ?_⟩
  intro y hy x hx ch
  have hwle : 255 - grayAt mask y x ≤ 255 := by omega
  obtain ⟨hnd, hdv⟩ := overlayChan_floor (fg.data y x ch) (mask.data y x ch)
    (bg.data y x ch) (255 - grayAt mask y x) (Fin.is_le _) (Fin.is_le _)
    (Fin.is_le _) hwle
  simp only [exactN]
  rw [hpix y hy x hx ch]
  refine ⟨fun h => hnd h, fun h => ?_⟩
  rcases hdv h with h1 | ⟨h1, _⟩
  · exact Or.inl h1
  · exact Or.inr h1

theorem overlay_trunc_mod_witness :
    ∃ out, overlay_image (constImg 1 1 5) (constImg 1 1 7) (constImg 1 1 9) = some out ∧
      ∀ y, y < (constImg 1 1 9).h → ∀ x, x < (constImg 1 1 9).w → ∀ ch : Fin 3,
        (¬ 255 ∣ exactN (constImg 1 1 5) (constImg 1 1 7) (constImg 1 1 9) y x ch →
          (out.data y x ch : ℕ) =
            (exactN (constImg 1 1 5) (constImg 1 1 7) (constImg 1 1 9) y x ch / 255) % 256) ∧
        (255 ∣ exactN (constImg 1 1 5) (constImg 1 1 7) (constImg 1 1 9) y x ch →
          (out.data y x ch : ℕ) =
            (exactN (constImg 1 1 5) (constImg 1 1 7) (constImg 1 1 9) y x ch / 255) % 256 ∨
          (out.data y x ch : ℕ) =
            (exactN (constImg 1 1 5) (constImg 1 1 7) (constImg 1 1 9) y x ch / 255 - 1)
              % 256) :=
  overlay_trunc_mod (constImg 1 1 5) (constImg 1 1 7) (constImg 1 1 9)
    ⟨rfl, rfl, rfl, rfl⟩

/-- The 1x1 mask whose BGR channels are (255, 255, 0): grayscale 179, so
the derived background weight is 76 while the B/G foreground weight is
255 — the per-channel weights sum to 331 > 255. -/
def wrapMask : Img := ⟨1, 1, fun _ _ ch => if ch.val = 2 then 0 else 255⟩

/-- C4 (counterexample).  The claim says the output is the weighted sum
rounded/clamped to [0, 255].  At foreground 255, background 250 and mask
`wrapMask`, the B-channel weighted sum is 329.5..., whose round/clamp is
255; the code truncates and wraps modulo 256, producing 73. -/
theorem overlay_round_clamp_counterexample :
    (overlay_image (constImg 1 1 255) (constImg 1 1 250) wrapMask).map
      (fun I => (I.data 0 0 0 : ℕ)) = some 73 ∧ (73 : ℕ) ≠ 255 := by
  constructor
  · decide
  · decide

/-- C5 (amended).  `overlay_image` has no explicit dimension check; a
mismatch surfaces only inside the generic elementwise operations.  When
the spatial dimensions disagree and no dimension equals 1, every numeric
path rejects the shapes and no frame is returned.  (With a degenerate
dimension of 1, numpy broadcasting can still produce a frame — see the
counterexample.) -/
theorem overlay_mismatch_fails (fg bg mask : Img)
    (h2 : 2 ≤ fg.h ∧ 2 ≤ fg.w ∧ 2 ≤ bg.h ∧ 2 ≤ bg.w ∧ 2 ≤ mask.h ∧ 2 ≤ mask.w)
    (hdis : ¬ dimsAgree fg bg mask) :
    overlay_image fg bg mask = none := by
  rw [overlay_image, if_neg]
  intro hok
  obtain ⟨c1, c2, c3, c4, _, _⟩ := hok
  apply hdis
  obtain ⟨g1, g2, g3, g4, g5, g6⟩ := h2
  refine ⟨?_, ?_, ?_, ?_⟩
  · rcases c1 with h | h | h <;> omega
  · rcases c2 with h | h | h <;> omega
  · rcases c3 with h | h | h <;> omega
  · rcases c4 with h | h | h <;> omega

theorem overlay_mismatch_fails_witness :
    overlay_image (constImg 2 2 5) (constImg 3 3 6) (constImg 3 3 255) = none :=
  overlay_mismatch_fails (constImg 2 2 5) (constImg 3 3 6) (constImg 3 3 255)
    ⟨by decide, by decide, by decide, by decide, by decide, by decide⟩ (by decide)

/-- C5 (counterexample).  The claim says every trio with disagreeing
spatial dimensions fails.  A 1x1 foreground against a 2x2 background and
2x2 mask disagrees, yet numpy broadcasting stretches the foreground and
`overlay_image` returns a composited 2x2 frame. -/
theorem overlay_mismatch_counterexample :
    ¬ dimsAgree (constImg 1 1 200) (constImg 2 2 7) (constImg 2 2 255) ∧
    (overlay_image (constImg 1 1 200) (constImg 2 2 7) (constImg 2 2 255)).map
      (fun I => I.h) = some 2 := by
  constructor
  · decide
  · decide

/-- C10 (confirmed).  With the unequal-channel mask `wrapMask` the
B-channel foreground weight (255) plus the grayscale-derived background
weight (255 - 179 = 76) exceeds 255; at foreground 255 and background 254
the weighted sum is 330.7..., and the output equals its truncation reduced
modulo 256 (330 % 256 = 74) instead of being clamped to 255. -/
theorem overlay_uint8_wraps :
    (wrapMask.data 0 0 0 : ℕ) ≠ (wrapMask.data 0 0 2 : ℕ) ∧
    255 < (wrapMask.data 0 0 0 : ℕ) + (255 - bgr2gray 255 255 0) ∧
    255 < (255 * 255 + 254 * (255 - bgr2gray 255 255 0)) / 255 ∧
    (overlay_image (constImg 1 1 255) (constImg 1 1 254) wrapMask).map
      (fun I => (I.data 0 0 0 : ℕ)) =
      some (((255 * 255 + 254 * (255 - bgr2gray 255 255 0)) / 255) % 256) ∧
    ((255 * 255 + 254 * (255 - bgr2gray 255 255 0)) / 255) % 256 ≠ 255 := by
  refine ⟨by decide, by decide, by decide, by decide, by decide⟩

/-! ## The per-frame colour table (src/app.py lines 96-101) -/

/-- An RGB colour triple of the segmentation palette. -/
def Color : Type := ℕ × ℕ × ℕ

instance : DecidableEq Color := inferInstanceAs (DecidableEq (ℕ × ℕ × ℕ))

/-- Line 96: `semantic_segmentation.colors = [ (0,0,0) for i in ... .colors]`. -/
def resetColors (colors : List Color) : List Color :=
  colors.map (fun _ => ((0, 0, 0) : Color))

/-- Python's `list.index`: the first index of `t`, `none` where Python
raises `ValueError`. -/
def labelIndex (t : String) : List String → Option ℕ
  | [] => none
  | l :: ls => if l = t then some 0 else (labelIndex t ls).map (· + 1)

/-- Lines 99-101: for each target label, `colors[labels.index(label)] =
(255,255,255)`.  `none` models the uncaught `ValueError` (absent label) or
`IndexError` that aborts the run. -/
def markTargets (labels : List String) : List String → List Color → Option (List Color)
  | [], cs => some cs
  | t :: ts, cs =>
    match labelIndex t labels with
    | none => none
    | some i =>
      if i < cs.length then markTargets labels ts (cs.set i (255, 255, 255)) else none

/-- Lines 96-101 combined: the colour table derived each frame. -/
def deriveColors (labels targets : List String) (colors : List Color) :
    Option (List Color) :=
  markTargets labels targets (resetColors colors)

theorem labelIndex_eq_none (t : String) (ls : List String) (h : t ∉ ls) :
    labelIndex t ls = none := by
  induction ls with
  | nil => rfl
  | cons l ls ih =>
    rw [labelIndex]
    have hne : ¬ (l = t) := by
      intro heq
      subst heq
      exact h (List.mem_cons_self _ _)
    rw [if_neg hne, ih (fun hm => h (List.mem_cons_of_mem _ hm))]
    rfl

theorem labelIndex_lt_length (t : String) (ls : List String) (i : ℕ)
    (h : labelIndex t ls = some i) : i < ls.length := by
  induction ls generalizing i with
  | nil => cases h
  | cons l ls ih =>
    rw [labelIndex] at h
    by_cases heq : l = t
    · rw [if_pos heq] at h
      injection h with h
      simp [← h]
    · rw [if_neg heq] at h
      cases hj : labelIndex t ls with
      | none => rw [hj] at h; cases h
      | some j =>
        rw [hj] at h
        simp only [Option.map_some'] at h
        injection h with h
        have := ih j hj
        simp only [List.length_cons]
        omega

theorem labelIndex_of_mem (t : String) (ls : List String) (h : t ∈ ls) :
    ∃ i, labelIndex t ls = some i := by
  induction ls with
  | nil => cases h
  | cons l ls ih =>
    rw [labelIndex]
    by_cases heq : l = t
    · exact ⟨0, by rw [if_pos heq]⟩
    · have hmem : t ∈ ls := by
        rcases List.mem_cons.mp h with h1 | h1
        · exact absurd h1.symm heq
        · exact h1
      rcases ih hmem with ⟨i, hi⟩
      exact ⟨i + 1, by rw [if_neg heq, hi]; rfl⟩

theorem markTargets_spec (labels : List String) (ts : List String) (cs : List Color)
    (hsub : ∀ t ∈ ts, t ∈ labels) (hlen : labels.length ≤ cs.length) :
    ∃ cs', markTargets labels ts cs = some cs' ∧ cs'.length = cs.length ∧
      ∀ i, i < cs.length →
        cs'[i]? = if (∃ t ∈ ts, labelIndex t labels = some i)
          then some ((255, 255, 255) : Color) else cs[i]? := by
  induction ts generalizing cs with
  | nil =>
    refine ⟨cs, rfl, rfl, ?_⟩
    intro i hi
    simp
  | cons t ts ih =>
    have htl : t ∈ labels := hsub t (List.mem_cons_self _ _)
    obtain ⟨i0, hi0⟩ := labelIndex_of_mem t labels htl
    have hi0lt : i0 < cs.length := lt_of_lt_of_le (labelIndex_lt_length t labels i0 hi0) hlen
    rw [markTargets, hi0]
    simp only [hi0lt, if_true]
    obtain ⟨cs', hsome, hlen', hspec⟩ := ih (cs.set i0 (255, 255, 255))
      (fun t' ht' => hsub t' (List.mem_cons_of_mem _ ht'))
      (by rw [List.length_set]; exact hlen)
    refine ⟨cs', hsome, by rw [hlen', List.length_set], ?_⟩
    intro i hi
    rw [hspec i (by rw [List.length_set]; exact hi)]
    by_cases hin : ∃ t' ∈ ts, labelIndex t' labels = some i
    · rw [if_pos hin, if_pos ?_]
      rcases hin with ⟨t', ht', hidx⟩
      exact ⟨t', List.mem_cons_of_mem _ ht', hidx⟩
    · rw [if_neg hin]
      by_cases hti : i0 = i
      · subst hti
        rw [if_pos ⟨t, List.mem_cons_self _ _, hi0⟩]
        exact List.getElem?_set_self hi0lt
      · have hcond : ¬ (∃ t' ∈ t :: ts, labelIndex t' labels = some i) := by
          rintro ⟨t', ht', hidx⟩
          rcases List.mem_cons.mp ht' with h1 | h1
          · subst h1
            rw [hi0] at hidx
            injection hidx with hidx
            exact hti hidx
          · exact hin ⟨t', h1, hidx⟩
        rw [if_neg hcond]
        exact List.getElem?_set_ne hti

theorem markTargets_none (labels : List String) (ts : List String) (cs : List Color)
    (t : String) (hmem : t ∈ ts) (habs : t ∉ labels) :
    markTargets labels ts cs = none := by
  induction ts generalizing cs with
  | nil => cases hmem
  | cons t0 ts ih =>
    rw [markTargets]
    rcases List.mem_cons.mp hmem with heq | hmem'
    · subst heq
      rw [labelIndex_eq_none t labels habs]
    · cases hidx : labelIndex t0 labels with
      | none => rfl
      | some i =>
        show (if i < cs.length then markTargets labels ts (cs.set i (255, 255, 255)) else none)
            = none
        split_ifs with hlt
        · exact ih _ hmem'
        · rfl

/-- C6 (confirmed).  The colour table derived each frame is black at every
index except the (first-occurrence) indices of the configured target
labels, which are white, in list order; in particular, for label list
`["person","chair","wall"]` and target labels `["person"]` the derived
table is `[white, black, black]`. -/
theorem deriveColors_spec (labels targets : List String) (colors : List Color)
    (hsub : ∀ t ∈ targets, t ∈ labels) (hlen : labels.length ≤ colors.length) :
    (∃ cs, deriveColors labels targets colors = some cs ∧ cs.length = colors.length ∧
      ∀ i, i < colors.length →
        cs[i]? = if (∃ t ∈ targets, labelIndex t labels = some i)
          then some ((255, 255, 255) : Color) else some ((0, 0, 0) : Color)) ∧
    deriveColors ["person", "chair", "wall"] ["person"]
        [(1, 2, 3), (4, 5, 6), (7, 8, 9)] =
      some [(255, 255, 255), (0, 0, 0), (0, 0, 0)] := by
  constructor
  · obtain ⟨cs, hsome, hl, hspec⟩ := markTargets_spec labels targets (resetColors colors)
      hsub (by rw [resetColors, List.length_map]; exact hlen)
    refine ⟨cs, hsome, by rw [hl, resetColors, List.length_map], ?_⟩
    intro i hi
    have hilen : i < (resetColors colors).length := by
      rw [resetColors, List.length_map]
      exact hi
    have hreset : (resetColors colors)[i]? = some ((0, 0, 0) : Color) := by
      rw [resetColors, List.getElem?_map, List.getElem?_eq_getElem hi]
      rfl
    rw [hspec i hilen, hreset]
  · decide

theorem deriveColors_spec_witness :
    (∃ cs, deriveColors ["person", "chair", "wall"] ["person"]
          [(1, 2, 3), (4, 5, 6), (7, 8, 9)] = some cs ∧
        cs.length = [((1, 2, 3) : Color), (4, 5, 6), (7, 8, 9)].length ∧
      ∀ i, i < [((1, 2, 3) : Color), (4, 5, 6), (7, 8, 9)].length →
        cs[i]? = if (∃ t ∈ ["person"], labelIndex t ["person", "chair", "wall"] = some i)
          then some ((255, 255, 255) : Color) else some ((0, 0, 0) : Color)) ∧
    deriveColors ["person", "chair", "wall"] ["person"]
        [(1, 2, 3), (4, 5, 6), (7, 8, 9)] =
      some [(255, 255, 255), (0, 0, 0), (0, 0, 0)] :=
  deriveColors_spec ["person", "chair", "wall"] ["person"]
    [(1, 2, 3), (4, 5, 6), (7, 8, 9)] (by decide) (by decide)

/-- C7 (confirmed).  If a configured target label is absent from the
model's label list, the per-frame colour-table step fails at the list
lookup (Python `list.index` raises `ValueError`) rather than skipping the
label or producing a mask: no colour table results, and the uncaught
exception aborts the run. -/
theorem deriveColors_absent_target (labels targets : List String) (colors : List Color)
    (t : String) (hmem : t ∈ targets) (habs : t ∉ labels) :
    deriveColors labels targets colors = none :=
  markTargets_none labels targets (resetColors colors) t hmem habs

theorem deriveColors_absent_target_witness :
    deriveColors ["person", "chair"] ["person", "unicorn"] [(1, 1, 1), (2, 2, 2)] = none :=
  deriveColors_absent_target ["person", "chair"] ["person", "unicorn"]
    [(1, 1, 1), (2, 2, 2)] "unicorn" (by decide) (by decide)

/-! ## Mask dilation (src/app.py lines 107-114) and box blur (line 117) -/

/-- The nonzero offsets of `cv.getStructuringElement(cv.MORPH_CROSS,
(31,31), (15,15))`: the full row and column through the centred anchor. -/
def crossOffsets : List (ℤ × ℤ) :=
  (List.range 31).map (fun i => ((i : ℤ) - 15, (0 : ℤ))) ++
    (List.range 31).map (fun i => ((0 : ℤ), (i : ℤ) - 15))

/-- The call `cv.dilate(mask, element)`: per channel, the maximum of the mask over
the in-bounds kernel samples (dilate's constant border is -inf, so
out-of-bounds samples do not contribute). -/
def dilate (img : Img) : Img :=
  { h := img.h, w := img.w,
    data := fun y x ch =>
      (crossOffsets.filterMap (fun d =>
        if 0 ≤ (y : ℤ) + d.1 ∧ (y : ℤ) + d.1 < img.h ∧
            0 ≤ (x : ℤ) + d.2 ∧ (x : ℤ) + d.2 < img.w then
          some (img.data ((y : ℤ) + d.1).toNat ((x : ℤ) + d.2).toNat ch)
        else none)).foldr max 0 }

/-- The number of fully white pixels (all three channels 255). -/
def whiteArea (img : Img) : ℕ :=
  ((Finset.range img.h ×ˢ Finset.range img.w).filter
    (fun p => ∀ ch : Fin 3, img.data p.1 p.2 ch = 255)).card

theorem le_foldr_max (l : List (Fin 256)) (a : Fin 256) (h : a ∈ l) :
    a ≤ l.foldr max 0 := by
  induction l with
  | nil => cases h
  | cons b l ih =>
    rcases List.mem_cons.mp h with h1 | h1
    · subst h1
      exact le_max_left _ _
    · exact le_trans (ih h1) (le_max_right _ _)

/-- C8 (confirmed).  Dilation with the 31x31 cross element never shrinks
the white region: every white pixel stays white (the kernel contains its
anchor), so the white-pixel count cannot decrease. -/
theorem dilate_whiteArea_mono (img : Img) : whiteArea img ≤ whiteArea (dilate img) := by
  apply Finset.card_le_card
  intro p hp
  rw [Finset.mem_filter] at hp ⊢
  refine ⟨hp.1, ?_⟩
  intro ch
  have hwhite := hp.2 ch
  obtain ⟨hy, hx⟩ : p.1 < img.h ∧ p.2 < img.w := by
    have hm := hp.1
    rw [Finset.mem_product] at hm
    exact ⟨Finset.mem_range.mp hm.1, Finset.mem_range.mp hm.2⟩
  have hmem : (255 : Fin 256) ∈ crossOffsets.filterMap (fun d =>
      if 0 ≤ (p.1 : ℤ) + d.1 ∧ (p.1 : ℤ) + d.1 < img.h ∧
          0 ≤ (p.2 : ℤ) + d.2 ∧ (p.2 : ℤ) + d.2 < img.w then
        some (img.data ((p.1 : ℤ) + d.1).toNat ((p.2 : ℤ) + d.2).toNat ch)
      else none) := by
    rw [List.mem_filterMap]
    refine ⟨((0 : ℤ), (0 : ℤ)), by decide, ?_⟩
    show (if 0 ≤ (p.1 : ℤ) + 0 ∧ (p.1 : ℤ) + 0 < img.h ∧
        0 ≤ (p.2 : ℤ) + 0 ∧ (p.2 : ℤ) + 0 < img.w then
      some (img.data ((p.1 : ℤ) + 0).toNat ((p.2 : ℤ) + 0).toNat ch)
      else none) = some 255
    rw [if_pos ⟨by omega, by omega, by omega, by omega⟩]
    simp only [add_zero, Int.toNat_natCast]
    rw [hwhite]
  have hle : (255 : Fin 256) ≤ (dilate img).data p.1 p.2 ch := le_foldr_max _ _ hmem
  exact le_antisymm (Fin.le_last _) hle

/-- OpenCV's default BORDER_REFLECT_101 index map (one reflection, clamped
for kernels that overrun the image more than once). -/
def refl101 (n : ℕ) (i : ℤ) : ℕ :=
  if i < 0 then min (n - 1) (-i).toNat
  else if i < (n : ℤ) then i.toNat
  else min (n - 1) (2 * (n : ℤ) - 2 - i).toNat

theorem refl101_lt (n : ℕ) (i : ℤ) (hn : 0 < n) : refl101 n i < n := by
  rw [refl101]
  split_ifs with h1 h2
  · have h := min_le_left (n - 1) (-i).toNat
    omega
  · omega
  · have h := min_le_left (n - 1) (2 * (n : ℤ) - 2 - i).toNat
    omega

/-- The call `cv.blur(mask, (k, k))`: the normalised box filter.  Each output
channel is the rounded mean of the k*k window anchored at the centre,
sampling out-of-range coordinates through `refl101`. -/
def blurMask (img : Img) (k : ℕ) : Img :=
  { h := img.h, w := img.w,
    data := fun y x ch =>
      ⟨(2 * (∑ dy ∈ Finset.range k, ∑ dx ∈ Finset.range k,
          (img.data (refl101 img.h ((y : ℤ) + dy - (k / 2 : ℕ)))
            (refl101 img.w ((x : ℤ) + dx - (k / 2 : ℕ))) ch : ℕ)) + k * k) /
        (2 * (k * k)) % 256,
        Nat.mod_lt _ (by norm_num)⟩ }

/-- All in-range pixel/channel positions of an image. -/
def pixVals (img : Img) : Finset (ℕ × ℕ × Fin 3) :=
  Finset.range img.h ×ˢ Finset.range img.w ×ˢ Finset.univ

theorem pixVals_nonempty (img : Img) (hh : 0 < img.h) (hw : 0 < img.w) :
    (pixVals img).Nonempty := by
  refine ⟨(0, 0, 0), ?_⟩
  rw [pixVals, Finset.mem_product]
  refine ⟨Finset.mem_range.mpr hh, ?_⟩
  rw [Finset.mem_product]
  exact ⟨Finset.mem_range.mpr hw, Finset.mem_univ _⟩

/-- The global minimum pixel value of a (nonempty) image. -/
def gmin (img : Img) (hne : (pixVals img).Nonempty) : ℕ :=
  (pixVals img).inf' hne (fun p => (img.data p.1 p.2.1 p.2.2 : ℕ))

/-- The global maximum pixel value of a (nonempty) image. -/
def gmax (img : Img) (hne : (pixVals img).Nonempty) : ℕ :=
  (pixVals img).sup' hne (fun p => (img.data p.1 p.2.1 p.2.2 : ℕ))

/-- C9 (confirmed).  Box blur preserves the spatial dimensions, and every
blurred pixel value lies within the input mask's global [min, max] range:
each sample is an image value, so the rounded mean cannot escape it. -/
theorem blur_dims_range (img : Img) (k : ℕ) (hk : 0 < k)
    (hh : 0 < img.h) (hw : 0 < img.w) :
    (blurMask img k).h = img.h ∧ (blurMask img k).w = img.w ∧
    ∀ y x : ℕ, ∀ ch : Fin 3,
      gmin img (pixVals_nonempty img hh hw) ≤ ((blurMask img k).data y x ch : ℕ) ∧
      ((blurMask img k).data y x ch : ℕ) ≤ gmax img (pixVals_nonempty img hh hw) := by
  refine ⟨rfl, rfl, ?_⟩
  intro y x ch
  have hsample : ∀ yy xx : ℤ,
      gmin img (pixVals_nonempty img hh hw) ≤
        (img.data (refl101 img.h yy) (refl101 img.w xx) ch : ℕ) ∧
      (img.data (refl101 img.h yy) (refl101 img.w xx) ch : ℕ) ≤
        gmax img (pixVals_nonempty img hh hw) := by
    intro yy xx
    have hmem : (refl101 img.h yy, refl101 img.w xx, ch) ∈ pixVals img := by
      rw [pixVals, Finset.mem_product]
      refine ⟨Finset.mem_range.mpr (refl101_lt _ _ hh), ?_⟩
      rw [Finset.mem_product]
      exact ⟨Finset.mem_range.mpr (refl101_lt _ _ hw), Finset.mem_univ _⟩
    constructor
    · exact Finset.inf'_le (fun p => (img.data p.1 p.2.1 p.2.2 : ℕ)) hmem
    · exact Finset.le_sup' (fun p => (img.data p.1 p.2.1 p.2.2 : ℕ)) hmem
  have hSlo : k * k * gmin img (pixVals_nonempty img hh hw) ≤
      ∑ dy ∈ Finset.range k, ∑ dx ∈ Finset.range k,
        (img.data (refl101 img.h ((y : ℤ) + dy - (k / 2 : ℕ)))
          (refl101 img.w ((x : ℤ) + dx - (k / 2 : ℕ))) ch : ℕ) := by
    calc k * k * gmin img (pixVals_nonempty img hh hw)
        = ∑ _dy ∈ Finset.range k, ∑ _dx ∈ Finset.range k,
            gmin img (pixVals_nonempty img hh hw) := by
          simp [Finset.sum_const, Finset.card_range]
          ring
    _ ≤ _ := Finset.sum_le_sum (fun dy _ => Finset.sum_le_sum
        (fun dx _ => (hsample _ _).1))
  have hShi : (∑ dy ∈ Finset.range k, ∑ dx ∈ Finset.range k,
        (img.data (refl101 img.h ((y : ℤ) + dy - (k / 2 : ℕ)))
          (refl101 img.w ((x : ℤ) + dx - (k / 2 : ℕ))) ch : ℕ)) ≤
      k * k * gmax img (pixVals_nonempty img hh hw) := by
    calc (∑ dy ∈ Finset.range k, ∑ dx ∈ Finset.range k,
          (img.data (refl101 img.h ((y : ℤ) + dy - (k / 2 : ℕ)))
            (refl101 img.w ((x : ℤ) + dx - (k / 2 : ℕ))) ch : ℕ))
        ≤ ∑ _dy ∈ Finset.range k, ∑ _dx ∈ Finset.range k,
            gmax img (pixVals_nonempty img hh hw) :=
          Finset.sum_le_sum (fun dy _ => Finset.sum_le_sum
            (fun dx _ => (hsample _ _).2))
    _ = k * k * gmax img (pixVals_nonempty img hh hw) := by
          simp [Finset.sum_const, Finset.card_range]
          ring
  have hK : 0 < k * k := Nat.mul_pos hk hk
  have hmax255 : gmax img (pixVals_nonempty img hh hw) ≤ 255 := by
    apply Finset.sup'_le
    intro p _
    exact Fin.is_le _
  have hdivlo : gmin img (pixVals_nonempty img hh hw) ≤
      (2 * (∑ dy ∈ Finset.range k, ∑ dx ∈ Finset.range k,
        (img.data (refl101 img.h ((y : ℤ) + dy - (k / 2 : ℕ)))
          (refl101 img.w ((x : ℤ) + dx - (k / 2 : ℕ))) ch : ℕ)) + k * k) /
      (2 * (k * k)) := by
    rw [Nat.le_div_iff_mul_le (by omega : 0 < 2 * (k * k))]
    have hexp : gmin img (pixVals_nonempty img hh hw) * (2 * (k * k)) =
        2 * (k * k * gmin img (pixVals_nonempty img hh hw)) := by ring
    omega
  have hdivhi : (2 * (∑ dy ∈ Finset.range k, ∑ dx ∈ Finset.range k,
        (img.data (refl101 img.h ((y : ℤ) + dy - (k / 2 : ℕ)))
          (refl101 img.w ((x : ℤ) + dx - (k / 2 : ℕ))) ch : ℕ)) + k * k) /
      (2 * (k * k)) ≤ gmax img (pixVals_nonempty img hh hw) := by
    have hlt : (2 * (∑ dy ∈ Finset.range k, ∑ dx ∈ Finset.range k,
        (img.data (refl101 img.h ((y : ℤ) + dy - (k / 2 : ℕ)))
          (refl101 img.w ((x : ℤ) + dx - (k / 2 : ℕ))) ch : ℕ)) + k * k) /
        (2 * (k * k)) < gmax img (pixVals_nonempty img hh hw) + 1 := by
      rw [Nat.div_lt_iff_lt_mul (by omega : 0 < 2 * (k * k))]
      have hexp : (gmax img (pixVals_nonempty img hh hw) + 1) * (2 * (k * k)) =
          2 * (k * k * gmax img (pixVals_nonempty img hh hw)) + 2 * (k * k) := by ring
      omega
    omega
  constructor
  · show gmin img (pixVals_nonempty img hh hw) ≤ _ % 256
    rw [Nat.mod_eq_of_lt (by omega)]
    exact hdivlo
  · show _ % 256 ≤ gmax img (pixVals_nonempty img hh hw)
    rw [Nat.mod_eq_of_lt (by omega)]
    exact hdivhi

theorem blur_dims_range_witness :
    (blurMask ⟨1, 1, fun _ _ _ => 7⟩ 1).h = (⟨1, 1, fun _ _ _ => 7⟩ : Img).h ∧
    (blurMask ⟨1, 1, fun _ _ _ => 7⟩ 1).w = (⟨1, 1, fun _ _ _ => 7⟩ : Img).w ∧
    ∀ y x : ℕ, ∀ ch : Fin 3,
      gmin ⟨1, 1, fun _ _ _ => 7⟩
          (pixVals_nonempty ⟨1, 1, fun _ _ _ => 7⟩ (by norm_num) (by norm_num)) ≤
        ((blurMask ⟨1, 1, fun _ _ _ => 7⟩ 1).data y x ch : ℕ) ∧
      ((blurMask ⟨1, 1, fun _ _ _ => 7⟩ 1).data y x ch : ℕ) ≤
        gmax ⟨1, 1, fun _ _ _ => 7⟩
          (pixVals_nonempty ⟨1, 1, fun _ _ _ => 7⟩ (by norm_num) (by norm_num)) :=
  blur_dims_range ⟨1, 1, fun _ _ _ => 7⟩ 1 (by norm_num) (by norm_num) (by norm_num)
